import Mathlib

/-!
# Verification of the planar computational-geometry core (`src/geometry.rs`)

Shallow embedding of the geometry subsystem: closest-pair search (brute force
and divide-and-conquer), convex hull (Graham scan), line-segment intersection,
and the k-d tree nearest-neighbor structure.

Modelling conventions:

* Coordinates are exact rationals (`ℚ`).  The specification restricts all
  inputs to finite `f64` values and declares behaviour on non-finite values out
  of contract; `ℚ` is the exact-arithmetic model of that contract.  In
  particular `partial_cmp` on coordinates is total (it returns `None` only for
  NaN), which the total order on `ℚ` captures.

* Euclidean distances are represented by their squares.  The source stores
  `distance = sqrt (dx*dx + dy*dy)`; since `Real.sqrt` is strictly monotone
  (and injective) on nonnegative reals, every comparison (`<`, `<=`, `==`) the
  source performs on `distance` values is mirrored exactly by the same
  comparison on the squared values kept here.  The two places where the source
  compares a plain coordinate difference against a `distance` are modelled by
  the exact equivalences `|a| < sqrt d ↔ a*a < d` and
  `a < sqrt d ↔ (a < 0 ∨ a*a < d)` (valid for `0 ≤ d`).

* Rust's `sort_by` (a stable sort driven by a total comparator on finite
  floats) is modelled by `List.mergeSort`, which is also stable.

* The scan of the Graham hull keeps its stack with the top at the head of the
  list (the source pushes/pops at the end of a `Vec`); the result is reversed
  back at the end, so the returned sequence matches the source exactly.

* `...Chk` variants re-run each public operation in an `Option` monad in which
  every fallible operation of the source (slice indexing, `Option::unwrap` on
  comparator results) is checked instead of defaulted: `none` models a panic.
  Proving `opChk x = some (op x)` for all `x` establishes panic-freedom.
-/

set_option maxHeartbeats 1000000

open scoped List

/-- A planar point (`struct Point`), with exact-rational coordinates standing
for finite `f64` coordinates. -/
structure Point where
  x : ℚ
  y : ℚ
deriving DecidableEq, Repr

/-- `Point::distance_squared_to`: squared Euclidean distance. -/
def Point.distance_squared_to (p other : Point) : ℚ :=
  let dx := p.x - other.x
  let dy := p.y - other.y
  dx * dx + dy * dy

/-- `struct ClosestPairResult`.  The `dist2` field holds the square of the
source's `distance` field (`distance = Real.sqrt dist2`). -/
structure ClosestPairResult where
  point1 : Point
  point2 : Point
  dist2 : ℚ
deriving DecidableEq, Repr

/-- `d < m` where `m : Option ℚ` models an `f64` running minimum initialised
to `f64::INFINITY` (`none`); every finite value is below `none`. -/
def ltInf (d : ℚ) (m : Option ℚ) : Bool :=
  match m with
  | none => true
  | some c => decide (d < c)

/-- The index pairs `(i, j)` with `i < j < n`, in the order the source's
double loop `for i in 0..n { for j in (i+1)..n { … } }` visits them. -/
def pairIdxs (n : ℕ) : List (ℕ × ℕ) :=
  (List.range n).flatMap (fun i => (List.range' (i + 1) (n - (i + 1))).map (fun j => (i, j)))

/-- The pair of points examined by the brute-force loop at index pair `ij`
(the `getD` defaults are never read: the loop only produces in-bounds
indices). -/
def bfP (points : List Point) (ij : ℕ × ℕ) : Point × Point :=
  (points.getD ij.1 ⟨0, 0⟩, points.getD ij.2 ⟨0, 0⟩)

/-- The (squared) distance examined by the brute-force loop at index pair
`ij`. -/
def bfD (points : List Point) (ij : ℕ × ℕ) : ℚ :=
  (bfP points ij).1.distance_squared_to (bfP points ij).2

/-- One iteration of the brute-force double loop: look up the two points and
update the running minimum on a strictly smaller distance. -/
def bfStep (points : List Point) (acc : Option ℚ × Point × Point) (ij : ℕ × ℕ) :
    Option ℚ × Point × Point :=
  if ltInf (bfD points ij) acc.1 then (some (bfD points ij), bfP points ij) else acc

/-- `closest_pair_brute_force`.  Matching on the first two elements models the
`points.len() < 2` guard followed by the reads of `points[0]` and `points[1]`.
The `none` fallback branch after the fold is unreachable: the very first
examined pair `(0, 1)` always replaces the infinite initial minimum. -/
def closest_pair_brute_force (points : List Point) : Option ClosestPairResult :=
  match points with
  | p0 :: p1 :: _ =>
    let r := (pairIdxs points.length).foldl (bfStep points) (none, p0, p1)
    match r with
    | (some d, a, b) => some ⟨a, b, d⟩
    | (none, a, b) => some ⟨a, b, a.distance_squared_to b⟩
  | _ => none

/-- The x-coordinate sort `points_x.sort_by(|a, b| a.x.partial_cmp(&b.x).unwrap())`:
a stable sort by the total order on (finite) x-coordinates. -/
def sortByX (l : List Point) : List Point :=
  l.mergeSort (fun a b => decide (a.x ≤ b.x))

/-- The y-coordinate sort, as `sortByX`. -/
def sortByY (l : List Point) : List Point :=
  l.mergeSort (fun a b => decide (a.y ≤ b.y))

/-- `a < Real.sqrt d` decided exactly on rationals, for `0 ≤ d`:
true iff `a < 0` or `a * a < d`.  Models the strip scan's comparison
`(strip[j].y - strip[i].y) < min_result.distance`. -/
def ltSqrt (a d : ℚ) : Bool :=
  decide (a < 0) || decide (a * a < d)

/-- The strip scan's inner `while` loop: starting from the point after `p`,
examine points while their y-difference from `p` stays below the current
minimum distance, updating that minimum on strictly smaller distances. -/
def stripInner (p : Point) (rest : List Point) (minr : ClosestPairResult) :
    ClosestPairResult :=
  match rest with
  | [] => minr
  | q :: rest' =>
    if ltSqrt (q.y - p.y) minr.dist2 then
      let d := p.distance_squared_to q
      stripInner p rest' (if d < minr.dist2 then ⟨p, q, d⟩ else minr)
    else minr

/-- The strip scan's outer `for i` loop. -/
def stripOuter (strip : List Point) (minr : ClosestPairResult) : ClosestPairResult :=
  match strip with
  | [] => minr
  | p :: rest => stripOuter rest (stripInner p rest minr)

/-- Collect the strip (`|point.x - midpoint.x| < min_result.distance`, decided
as `(point.x - midpoint.x)² < min_result.distance²`) from the y-sorted list and
scan it. -/
def stripPhase (py : List Point) (midpoint : Point) (minr : ClosestPairResult) :
    ClosestPairResult :=
  stripOuter
    (py.filter (fun p => decide ((p.x - midpoint.x) * (p.x - midpoint.x) < minr.dist2)))
    minr

/-- `closest_pair_rec`. -/
def closest_pair_rec (px py : List Point) : Option ClosestPairResult :=
  if _h : px.length ≤ 3 then
    closest_pair_brute_force px
  else
    let mid := px.length / 2
    -- `mid < px.length`, so the default of `getD` is never read.
    let midpoint := px.getD mid ⟨0, 0⟩
    let left_y := py.filter (fun p => decide (p.x ≤ midpoint.x))
    let right_y := py.filter (fun p => !decide (p.x ≤ midpoint.x))
    match closest_pair_rec (px.take mid) left_y, closest_pair_rec (px.drop mid) right_y with
    | none, none => none
    | some l, none => some (stripPhase py midpoint l)
    | none, some r => some (stripPhase py midpoint r)
    | some l, some r =>
      some (stripPhase py midpoint (if l.dist2 ≤ r.dist2 then l else r))
termination_by px.length
decreasing_by
  · simp only [List.length_take]
    omega
  · simp only [List.length_drop]
    omega

/-- `closest_pair_divide_conquer`. -/
def closest_pair_divide_conquer (points : List Point) : Option ClosestPairResult :=
  if points.length < 2 then none
  else closest_pair_rec (sortByX points) (sortByY points)

/-- `cross_product(o, a, b)`. -/
def cross_product (o a b : Point) : ℚ :=
  (a.x - o.x) * (b.y - o.y) - (a.y - o.y) * (b.x - o.x)

/-- The scan for the bottom-most point (smallest y, ties broken by smallest x),
starting from `points[0]` over the remaining points. -/
def bottomPoint (p0 : Point) (rest : List Point) : Point :=
  rest.foldl (fun bp p => if p.y < bp.y ∨ (p.y = bp.y ∧ p.x < bp.x) then p else bp) p0

/-- Comparator modelling `polar_angle(bottom, a) <= polar_angle(bottom, b)`.
Every non-anchor point lies strictly above the anchor, or on the same
horizontal line strictly to its right, so both `atan2` angles lie in `[0, π)`;
on that interval the exact-arithmetic comparison of the angles coincides with
the sign of the cross product of the two direction vectors. -/
def angleLe (bottom a b : Point) : Bool :=
  decide (0 ≤ cross_product bottom a b)

/-- The Graham-scan pop loop
`while hull.len() > 1 && cross_product(&hull[len-2], &hull[len-1], &point) <= 0.0 { hull.pop(); }`,
on a stack kept top-at-head. -/
def popWhile (pt : Point) : List Point → List Point
  | b :: a :: rest =>
    if cross_product a b pt ≤ 0 then popWhile pt (a :: rest) else b :: a :: rest
  | l => l

/-- `convex_hull_graham_scan`.  The stack is kept top-at-head and reversed at
the end, matching the source's `Vec` with push/pop at the end. -/
def convex_hull_graham_scan (points : List Point) : List Point :=
  if points.length < 3 then points
  else
    match points with
    | [] => []  -- unreachable: length ≥ 3
    | p0 :: rest =>
      let bottom := bottomPoint p0 rest
      let sorted := (points.filter (fun p => p ≠ bottom)).mergeSort (angleLe bottom)
      (sorted.foldl (fun hull p => p :: popWhile p hull) [bottom]).reverse

/-- `struct LineSegment`.  The second field is called `end` in the source;
`end` is a reserved word in Lean, hence `endP`. -/
structure LineSegment where
  start : Point
  endP : Point
deriving DecidableEq, Repr

/-- `direction(pi, pj, pk)`. -/
def direction (p1 p2 p3 : Point) : ℚ :=
  cross_product p1 p2 p3

/-- `on_segment(pi, pj, pk)`: bounding-box containment test. -/
def on_segment (p1 p2 p3 : Point) : Bool :=
  decide (p2.x ≤ max p1.x p3.x) && decide (min p1.x p3.x ≤ p2.x) &&
  decide (p2.y ≤ max p1.y p3.y) && decide (min p1.y p3.y ≤ p2.y)

/-- `LineSegment::intersects`. -/
def LineSegment.intersects (s o : LineSegment) : Bool :=
  let d1 := direction o.start o.endP s.start
  let d2 := direction o.start o.endP s.endP
  let d3 := direction s.start s.endP o.start
  let d4 := direction s.start s.endP o.endP
  if ((decide (d1 > 0) && decide (d2 < 0)) || (decide (d1 < 0) && decide (d2 > 0))) &&
     ((decide (d3 > 0) && decide (d4 < 0)) || (decide (d3 < 0) && decide (d4 > 0))) then
    true
  else if (decide (d1 = 0) && on_segment o.start s.start o.endP) ||
          (decide (d2 = 0) && on_segment o.start s.endP o.endP) ||
          (decide (d3 = 0) && on_segment s.start o.start s.endP) ||
          (decide (d4 = 0) && on_segment s.start o.endP s.endP) then
    true
  else false

/-- `find_intersecting_segments`: exhaustive pairwise test, collecting the
index pairs in loop order. -/
def find_intersecting_segments (segments : List LineSegment) : List (ℕ × ℕ) :=
  (pairIdxs segments.length).filter (fun ij =>
    (segments.getD ij.1 ⟨⟨0, 0⟩, ⟨0, 0⟩⟩).intersects (segments.getD ij.2 ⟨⟨0, 0⟩, ⟨0, 0⟩⟩))

/-- A k-d (sub)tree: `Kd.nil` models an absent child
(`Option<Box<KdNode>> = None`), `Kd.node` models a `KdNode`. -/
inductive Kd where
  | nil
  | node (point : Point) (left : Kd) (right : Kd) (dimension : ℕ)
deriving DecidableEq, Repr

/-- `struct KdTree { root: Option<Box<KdNode>> }`. -/
structure KdTree where
  root : Kd
deriving DecidableEq, Repr

/-- The coordinate selected by a node's splitting dimension
(`if dimension == 0 { p.x } else { p.y }`). -/
def coordAt (dimension : ℕ) (p : Point) : ℚ :=
  if dimension = 0 then p.x else p.y

/-- The per-level sort of `build_recursive`: by x when the splitting dimension
is 0, by y otherwise. -/
def sortByDim (dimension : ℕ) (l : List Point) : List Point :=
  if dimension = 0 then sortByX l else sortByY l

/-- `KdTree::build_recursive`.  The source is never called on an empty slice
(both call sites are guarded); the `[]` branch returns `Kd.nil` and the
instrumented variant treats it as a panic. -/
def KdTree.build_recursive (points : List Point) (depth : ℕ) : Kd :=
  match hpts : points with
  | [] => Kd.nil
  | _ :: _ =>
    let dimension := depth % 2
    let sorted := sortByDim dimension points
    let mid := points.length / 2
    -- `mid < points.length`, so the default of `getD` is never read.
    let point := sorted.getD mid ⟨0, 0⟩
    let leftT :=
      if 0 < mid then KdTree.build_recursive (sorted.take mid) (depth + 1) else Kd.nil
    let rightT :=
      if mid + 1 < points.length then KdTree.build_recursive (sorted.drop (mid + 1)) (depth + 1)
      else Kd.nil
    Kd.node point leftT rightT dimension
termination_by points.length
decreasing_by
  all_goals
    have hs : (sortByDim (depth % 2) points).length = points.length := by
      unfold sortByDim sortByX sortByY
      split <;> simp
    subst hpts
    simp only [List.length_take, List.length_drop, hs]
    omega

/-- `KdTree::build`. -/
def KdTree.build (points : List Point) : KdTree :=
  if points.isEmpty then ⟨Kd.nil⟩
  else ⟨KdTree.build_recursive points 0⟩

/-- `KdTree::nearest_neighbor_recursive`, threading the `best`/`best_distance`
state explicitly.  The source's `(near_child, far_child)` selection is inlined
into the two branches of `query_coord < node_coord`; a `None` child
(`Kd.nil`) is simply not descended into, matching the `if let Some(child)`
guards. -/
def KdTree.nn_rec : Kd → Point → Point → ℚ → Point × ℚ
  | Kd.nil, _, best, bestd => (best, bestd)
  | Kd.node point l r dimension, query, best, bestd =>
    let d := query.distance_squared_to point
    let best1 := if d < bestd then point else best
    let bestd1 := if d < bestd then d else bestd
    let query_coord := if dimension = 0 then query.x else query.y
    let node_coord := if dimension = 0 then point.x else point.y
    let axis_distance := (query_coord - node_coord) * (query_coord - node_coord)
    if query_coord < node_coord then
      let s2 := KdTree.nn_rec l query best1 bestd1
      if axis_distance < s2.2 then KdTree.nn_rec r query s2.1 s2.2 else s2
    else
      let s2 := KdTree.nn_rec r query best1 bestd1
      if axis_distance < s2.2 then KdTree.nn_rec l query s2.1 s2.2 else s2

/-- `KdTree::nearest_neighbor`. -/
def KdTree.nearest_neighbor (t : KdTree) (query : Point) : Option Point :=
  match t.root with
  | Kd.nil => none
  | Kd.node point l r dimension =>
    some (KdTree.nn_rec (Kd.node point l r dimension) query point
      (query.distance_squared_to point)).1

/-- The multiset of points stored in a (sub)tree. -/
def Kd.points : Kd → Multiset Point
  | Kd.nil => 0
  | Kd.node p l r _ => p ::ₘ (l.points + r.points)

/-- `{u, v} ≤ l` as multisets: the list `l` contains the (unordered) pair
`u, v`, with multiplicity (`u = v` requires two occurrences).  This is the
notion of "a pair of points of the input" used by the closest-pair
statements. -/
def hasPair (l : List Point) (u v : Point) : Prop :=
  ({u, v} : Multiset Point) ≤ (l : Multiset Point)

/-- Interpret the running minimum of the brute-force loop in `WithTop ℚ`
(`none`, i.e. `f64::INFINITY`, becomes `⊤`). -/
def toTop (m : Option ℚ) : WithTop ℚ :=
  match m with
  | none => ⊤
  | some q => (q : WithTop ℚ)

/-- The per-node k-d invariant: along the node's splitting dimension, every
point in the left subtree is `≤` the node's point and every point in the right
subtree is `≥` it (non-strict on both sides). -/
def kdInv : Kd → Prop
  | Kd.nil => True
  | Kd.node p l r dim =>
      (∀ q ∈ l.points, coordAt dim q ≤ coordAt dim p) ∧
      (∀ q ∈ r.points, coordAt dim p ≤ coordAt dim q) ∧
      kdInv l ∧ kdInv r

/-! ## Panic-instrumented variants

Every operation of the source that can panic — slice indexing
(`points[i]`), and `Option::unwrap` on the result of `partial_cmp` inside
the sort comparators — is re-translated below into the `Option` monad:
`none` stands for a panic, and the outer `some` wraps the value the source
returns normally (for functions that themselves return `Option<_>`, the
payload is again an `Option`).  The indexing sites use the checked lookup
`l[i]?`; the comparator unwraps appear through `fcmp` / `angleCmpChk`,
whose `isSome` is tested over every candidate argument pair before a sort
runs.  On exact rationals (the model of the finite-coordinate contract)
`partial_cmp` is the total `compare`, and `atan2` of finite operands is
never NaN, so those comparator checks are satisfiable by construction —
exactly the guarantee the contract provides.  The strip scan's indices
(`strip[i]`, `strip[j]`) are produced by `for i in 0..strip.len()` and
guarded by the short-circuit `j < strip.len() && …`, which the structural
recursion of `stripInner`/`stripOuter` reproduces directly, and
`Vec::pop`/`Vec::push` never panic. -/

/-- `f64::partial_cmp` on finite values (the model's coordinates are exact
rationals): the total comparison, always `some`.  On actual `f64` it is
`None` only when an operand is NaN, which the finite-coordinate contract
excludes. -/
def fcmp (a b : ℚ) : Option Ordering :=
  some (compare a b)

/-- Checked lookup of the brute-force loop's two points
(`points[i]`, `points[j]`). -/
def bfPChk (points : List Point) (ij : ℕ × ℕ) : Option (Point × Point) :=
  match points[ij.1]?, points[ij.2]? with
  | some a, some b => some (a, b)
  | _, _ => none

/-- One iteration of the brute-force double loop with checked indexing. -/
def bfStepChk (points : List Point) (acc : Option (Option ℚ × Point × Point))
    (ij : ℕ × ℕ) : Option (Option ℚ × Point × Point) :=
  match acc with
  | none => none
  | some a =>
    match bfPChk points ij with
    | none => none
    | some (u, v) =>
      let d := u.distance_squared_to v
      if ltInf d a.1 then some (some d, u, v) else some a

/-- `closest_pair_brute_force`, instrumented: the `len < 2` guard, then the
checked reads of `points[0]` and `points[1]`, then the loop with checked
indexing. -/
def closest_pair_brute_forceChk (points : List Point) :
    Option (Option ClosestPairResult) :=
  if points.length < 2 then some none
  else
    match points[0]?, points[1]? with
    | some p0, some p1 =>
      match (pairIdxs points.length).foldl (bfStepChk points) (some (none, p0, p1)) with
      | none => none
      | some (some d, a, b) => some (some ⟨a, b, d⟩)
      | some (none, a, b) => some (some ⟨a, b, a.distance_squared_to b⟩)
    | _, _ => none

/-- The x-sort with its comparator unwrap checked on every candidate pair. -/
def sortByXChk (l : List Point) : Option (List Point) :=
  if l.all (fun a => l.all (fun b => (fcmp a.x b.x).isSome)) then some (sortByX l)
  else none

/-- The y-sort with its comparator unwrap checked on every candidate pair. -/
def sortByYChk (l : List Point) : Option (List Point) :=
  if l.all (fun a => l.all (fun b => (fcmp a.y b.y).isSome)) then some (sortByY l)
  else none

/-- `closest_pair_rec`, instrumented: the only indexing outside the strip
scan's guarded loops is `points_x[mid]`, here a checked lookup. -/
def closest_pair_recChk (px py : List Point) : Option (Option ClosestPairResult) :=
  if _h : px.length ≤ 3 then
    closest_pair_brute_forceChk px
  else
    match px[px.length / 2]? with
    | none => none
    | some midpoint =>
      let left_y := py.filter (fun p => decide (p.x ≤ midpoint.x))
      let right_y := py.filter (fun p => !decide (p.x ≤ midpoint.x))
      match closest_pair_recChk (px.take (px.length / 2)) left_y,
            closest_pair_recChk (px.drop (px.length / 2)) right_y with
      | some lo, some ro =>
        match lo, ro with
        | none, none => some none
        | some l, none => some (some (stripPhase py midpoint l))
        | none, some r => some (some (stripPhase py midpoint r))
        | some l, some r =>
          some (some (stripPhase py midpoint (if l.dist2 ≤ r.dist2 then l else r)))
      | _, _ => none
termination_by px.length
decreasing_by
  · simp only [List.length_take]
    omega
  · simp only [List.length_drop]
    omega

/-- `closest_pair_divide_conquer`, instrumented: both sort-comparator
unwraps are checked before the recursion runs. -/
def closest_pair_divide_conquerChk (points : List Point) :
    Option (Option ClosestPairResult) :=
  if points.length < 2 then some none
  else
    match sortByXChk points, sortByYChk points with
    | some px, some py => closest_pair_recChk px py
    | _, _ => none

/-- The polar-angle comparator with its unwrap made explicit.  `atan2` of
finite operands is finite (never NaN), so `partial_cmp` of two polar angles
is always `Some`; the comparison itself is the exact `angleLe`. -/
def angleCmpChk (bottom a b : Point) : Option Bool :=
  some (angleLe bottom a b)

/-- The polar-angle sort with its comparator unwrap checked on every
candidate pair. -/
def sortByAngleChk (bottom : Point) (l : List Point) : Option (List Point) :=
  if l.all (fun a => l.all (fun b => (angleCmpChk bottom a b).isSome)) then
    some (l.mergeSort (angleLe bottom))
  else none

/-- The Graham-scan pop loop with the reads of `hull[hull.len()-1]` and
`hull[hull.len()-2]` (head and second element of the top-at-head stack) as
checked lookups behind the `hull.len() > 1` guard. -/
def popWhileChk (pt : Point) (hull : List Point) : Option (List Point) :=
  if _h1 : 1 < hull.length then
    match hull[0]?, hull[1]? with
    | some b, some a =>
      if cross_product a b pt ≤ 0 then popWhileChk pt hull.tail else some hull
    | _, _ => none
  else some hull
termination_by hull.length
decreasing_by
  simp only [List.length_tail]
  omega

/-- `convex_hull_graham_scan`, instrumented: the checked read of
`points[0]`, the checked polar sort, and the scan folded through the
`Option` monad. -/
def convex_hull_graham_scanChk (points : List Point) : Option (List Point) :=
  if points.length < 3 then some points
  else
    match points[0]? with
    | none => none
    | some p0 =>
      let bottom := bottomPoint p0 points.tail
      match sortByAngleChk bottom (points.filter (fun p => p ≠ bottom)) with
      | none => none
      | some sorted =>
        (sorted.foldlM (fun hull p => (popWhileChk p hull).map (fun h => p :: h))
          [bottom]).map List.reverse

/-- `LineSegment::intersects`, instrumented: the body performs only
arithmetic and comparisons on finite values — it has no indexing and no
unwrap, hence no failure point. -/
def LineSegment.intersectsChk (s o : LineSegment) : Option Bool :=
  let d1 := direction o.start o.endP s.start
  let d2 := direction o.start o.endP s.endP
  let d3 := direction s.start s.endP o.start
  let d4 := direction s.start s.endP o.endP
  if ((decide (d1 > 0) && decide (d2 < 0)) || (decide (d1 < 0) && decide (d2 > 0))) &&
     ((decide (d3 > 0) && decide (d4 < 0)) || (decide (d3 < 0) && decide (d4 > 0))) then
    some true
  else if (decide (d1 = 0) && on_segment o.start s.start o.endP) ||
          (decide (d2 = 0) && on_segment o.start s.endP o.endP) ||
          (decide (d3 = 0) && on_segment s.start o.start s.endP) ||
          (decide (d4 = 0) && on_segment s.start o.endP s.endP) then
    some true
  else some false

/-- `find_intersecting_segments`, instrumented: the double loop with checked
reads of `segments[i]` and `segments[j]`, pushing hits in loop order. -/
def find_intersecting_segmentsChk (segments : List LineSegment) :
    Option (List (ℕ × ℕ)) :=
  (pairIdxs segments.length).foldlM
    (fun acc ij =>
      segments[ij.1]?.bind fun a => segments[ij.2]?.bind fun b =>
        some (if a.intersects b then acc ++ [ij] else acc))
    []

/-- The per-level sort of `build_recursive` with its comparator unwrap
checked. -/
def sortByDimChk (dimension : ℕ) (l : List Point) : Option (List Point) :=
  if dimension = 0 then sortByXChk l else sortByYChk l

/-- `KdTree::build_recursive`, instrumented: the checked sort, then the
checked read of `points[mid]` — the lookup that panics when the function is
(wrongly) called on an empty slice. -/
def KdTree.build_recursiveChk (points : List Point) (depth : ℕ) : Option Kd :=
  match sortByDimChk (depth % 2) points with
  | none => none
  | some _ =>
    -- The payload of `sortByDimChk` is `sortByDim` by its very definition;
    -- the match above only records whether a comparator unwrap failed.
    let sorted := sortByDim (depth % 2) points
    let mid := points.length / 2
    match sorted[mid]? with
    | none => none
    | some point =>
      match (if 0 < mid then KdTree.build_recursiveChk (sorted.take mid) (depth + 1)
             else some Kd.nil),
            (if mid + 1 < points.length then
               KdTree.build_recursiveChk (sorted.drop (mid + 1)) (depth + 1)
             else some Kd.nil) with
      | some leftT, some rightT => some (Kd.node point leftT rightT (depth % 2))
      | _, _ => none
termination_by points.length
decreasing_by
  all_goals
    have hlen : (sortByDim (depth % 2) points).length = points.length := by
      unfold sortByDim sortByX sortByY
      split <;> simp
    simp only [List.length_take, List.length_drop, hlen]
    omega

/-- `KdTree::build`, instrumented. -/
def KdTree.buildChk (points : List Point) : Option KdTree :=
  if points.isEmpty then some ⟨Kd.nil⟩
  else
    match KdTree.build_recursiveChk points 0 with
    | none => none
    | some root => some ⟨root⟩

/-- `KdTree::nearest_neighbor_recursive`, instrumented: the traversal reads
no index and unwraps no option (absent children are matched, not
unwrapped), so every step is pure. -/
def KdTree.nn_recChk : Kd → Point → Point → ℚ → Option (Point × ℚ)
  | Kd.nil, _, best, bestd => some (best, bestd)
  | Kd.node point l r dimension, query, best, bestd =>
    let d := query.distance_squared_to point
    let best1 := if d < bestd then point else best
    let bestd1 := if d < bestd then d else bestd
    let query_coord := if dimension = 0 then query.x else query.y
    let node_coord := if dimension = 0 then point.x else point.y
    let axis_distance := (query_coord - node_coord) * (query_coord - node_coord)
    if query_coord < node_coord then
      (KdTree.nn_recChk l query best1 bestd1).bind fun s2 =>
        if axis_distance < s2.2 then KdTree.nn_recChk r query s2.1 s2.2 else some s2
    else
      (KdTree.nn_recChk r query best1 bestd1).bind fun s2 =>
        if axis_distance < s2.2 then KdTree.nn_recChk l query s2.1 s2.2 else some s2

/-- `KdTree::nearest_neighbor`, instrumented. -/
def KdTree.nearest_neighborChk (t : KdTree) (query : Point) : Option (Option Point) :=
  match t.root with
  | Kd.nil => some none
  | Kd.node point l r dimension =>
    match KdTree.nn_recChk (Kd.node point l r dimension) query point
        (query.distance_squared_to point) with
    | none => none
    | some s => some (some s.1)

/-! ## Basic facts about squared distances -/

theorem dist2_def (p q : Point) :
    p.distance_squared_to q = (p.x - q.x) * (p.x - q.x) + (p.y - q.y) * (p.y - q.y) := rfl

theorem dist2_nonneg (p q : Point) : 0 ≤ p.distance_squared_to q := by
  rw [dist2_def]
  exact add_nonneg (mul_self_nonneg _) (mul_self_nonneg _)

theorem dist2_comm (p q : Point) : p.distance_squared_to q = q.distance_squared_to p := by
  rw [dist2_def, dist2_def]
  ring

theorem dx_sq_le_dist2 (p q : Point) :
    (p.x - q.x) * (p.x - q.x) ≤ p.distance_squared_to q := by
  rw [dist2_def]
  nlinarith [mul_self_nonneg (p.y - q.y)]

theorem dy_sq_le_dist2 (p q : Point) :
    (p.y - q.y) * (p.y - q.y) ≤ p.distance_squared_to q := by
  rw [dist2_def]
  nlinarith [mul_self_nonneg (p.x - q.x)]

theorem dy_sq_le_dist2' (p q : Point) :
    (q.y - p.y) * (q.y - p.y) ≤ p.distance_squared_to q := by
  rw [dist2_def]
  nlinarith [mul_self_nonneg (p.x - q.x)]

/-! ## The index pairs visited by the double loops -/

theorem mem_pairIdxs {n : ℕ} {pr : ℕ × ℕ} : pr ∈ pairIdxs n ↔ pr.1 < pr.2 ∧ pr.2 < n := by
  obtain ⟨i, j⟩ := pr
  unfold pairIdxs
  simp only [List.mem_flatMap, List.mem_map, List.mem_range, List.mem_range', Prod.mk.injEq]
  constructor
  · rintro ⟨a, ha, b, ⟨k, hk, rfl⟩, rfl, rfl⟩
    omega
  · rintro ⟨h1, h2⟩
    exact ⟨i, by omega, j, ⟨j - (i + 1), by omega, by omega⟩, rfl, rfl⟩

/-- The double-loop order is lexicographic on `(i, j)`. -/
theorem pairIdxs_pairwise (n : ℕ) :
    (pairIdxs n).Pairwise (fun a b => a.1 < b.1 ∨ (a.1 = b.1 ∧ a.2 < b.2)) := by
  unfold pairIdxs List.flatMap
  rw [List.pairwise_flatten]
  refine ⟨?_, ?_⟩
  · intro l hl
    simp only [List.mem_map, List.mem_range] at hl
    obtain ⟨i, _, rfl⟩ := hl
    rw [List.pairwise_map]
    exact (List.pairwise_lt_range' _ _).imp (fun h => Or.inr ⟨rfl, h⟩)
  · rw [List.pairwise_map]
    refine (List.pairwise_lt_range n).imp ?_
    intro a b hab
    simp only [List.mem_map, List.mem_range']
    rintro x ⟨j, ⟨k, hk, rfl⟩, rfl⟩ y ⟨j', ⟨k', hk', rfl⟩, rfl⟩
    exact Or.inl hab

/-! ## The brute-force fold -/

theorem ltInf_iff {d : ℚ} {m : Option ℚ} : ltInf d m = true ↔ (d : WithTop ℚ) < toTop m := by
  cases m with
  | none => simp [ltInf, toTop]
  | some c => simp [ltInf, toTop]

theorem ltInf_false {d : ℚ} {m : Option ℚ} :
    ltInf d m = false ↔ toTop m ≤ (d : WithTop ℚ) := by
  rw [← not_lt, ← ltInf_iff]
  cases ltInf d m <;> simp

theorem getD_eq_get {l : List Point} {i : ℕ} (h : i < l.length) :
    l.getD i ⟨0, 0⟩ = l.get ⟨i, h⟩ := by
  simp [List.getD_eq_getElem?_getD, List.getElem?_eq_getElem h]

/-- Full characterization of the brute-force update loop over any list of
index pairs: either no pair beats the initial minimum and the accumulator
passes through unchanged, or the final state records the first pair (in visit
order) achieving the overall minimum, which beats the initial minimum. -/
theorem bfFold_char (points : List Point) :
    ∀ (REM : List (ℕ × ℕ)) (acc : Option ℚ × Point × Point),
      (REM.foldl (bfStep points) acc = acc ∧
        ∀ pr ∈ REM, ltInf (bfD points pr) acc.1 = false) ∨
      (∃ k : Fin REM.length,
        (REM.foldl (bfStep points) acc).1 = some (bfD points (REM.get k)) ∧
        (REM.foldl (bfStep points) acc).2 = bfP points (REM.get k) ∧
        ltInf (bfD points (REM.get k)) acc.1 = true ∧
        (∀ pr ∈ REM, bfD points (REM.get k) ≤ bfD points pr) ∧
        (∀ k' : Fin REM.length, k'.val < k.val →
          bfD points (REM.get k) < bfD points (REM.get k'))) := by
  intro REM
  induction REM with
  | nil =>
    intro acc
    left
    exact ⟨rfl, by simp⟩
  | cons pr REST ih =>
    intro acc
    rw [List.foldl_cons]
    cases hstep : ltInf (bfD points pr) acc.1 with
    | false =>
      have hacc : bfStep points acc pr = acc := by
        simp [bfStep, hstep]
      rw [hacc]
      rcases ih acc with ⟨heq, hall⟩ | ⟨k, hval, hpair, hbeat, hmin, hfirst⟩
      · left
        refine ⟨heq, ?_⟩
        intro pr' hpr'
        rcases List.mem_cons.mp hpr' with rfl | h
        · exact hstep
        · exact hall pr' h
      · right
        refine ⟨⟨k.val + 1, by simp [Nat.succ_lt_succ k.isLt]⟩, ?_, ?_, ?_, ?_, ?_⟩
        · simpa using hval
        · simpa using hpair
        · simpa using hbeat
        · intro pr' hpr'
          rcases List.mem_cons.mp hpr' with rfl | h
          · -- the skipped head pair is at least the old minimum, which the
            -- recorded pair strictly beats
            have h1 : (bfD points (REST.get k) : WithTop ℚ) < toTop acc.1 :=
              ltInf_iff.mp hbeat
            have h2 : toTop acc.1 ≤ (bfD points pr' : WithTop ℚ) := ltInf_false.mp hstep
            have := lt_of_lt_of_le h1 h2
            simpa using le_of_lt (WithTop.coe_lt_coe.mp this)
          · simpa using hmin pr' h
        · intro k' hk'
          obtain ⟨kv, hkv⟩ := k'
          change kv < k.val + 1 at hk'
          simp only [List.length_cons] at hkv
          cases kv with
          | zero =>
            show bfD points (REST.get k) < bfD points pr
            have h1 : (bfD points (REST.get k) : WithTop ℚ) < toTop acc.1 :=
              ltInf_iff.mp hbeat
            have h2 : toTop acc.1 ≤ (bfD points pr : WithTop ℚ) := ltInf_false.mp hstep
            exact_mod_cast lt_of_lt_of_le h1 h2
          | succ kv' =>
            show bfD points (REST.get k) < bfD points (REST.get ⟨kv', by omega⟩)
            have hk2 : kv' < k.val := by omega
            exact hfirst ⟨kv', by omega⟩ hk2
    | true =>
      have hacc : bfStep points acc pr = (some (bfD points pr), bfP points pr) := by
        simp [bfStep, hstep]
      rw [hacc]
      rcases ih (some (bfD points pr), bfP points pr) with
        ⟨heq, hall⟩ | ⟨k, hval, hpair, hbeat, hmin, hfirst⟩
      · right
        refine ⟨⟨0, by simp⟩, ?_, ?_, ?_, ?_, ?_⟩
        · rw [heq]
          rfl
        · rw [heq]
          rfl
        · exact hstep
        · intro pr' hpr'
          rcases List.mem_cons.mp hpr' with rfl | h
          · exact le_refl _
          · have := hall pr' h
            have h2 : toTop (some (bfD points pr)) ≤ (bfD points pr' : WithTop ℚ) :=
              ltInf_false.mp this
            simpa [toTop] using WithTop.coe_le_coe.mp h2
        · intro k' hk'
          change k'.val < 0 at hk'
          exact absurd hk' (Nat.not_lt_zero _)
      · right
        refine ⟨⟨k.val + 1, by simp [Nat.succ_lt_succ k.isLt]⟩, ?_, ?_, ?_, ?_, ?_⟩
        · simpa using hval
        · simpa using hpair
        · -- the recorded pair beats the head update, which beats `acc`
          have h1 : (bfD points (REST.get k) : WithTop ℚ) < toTop (some (bfD points pr)) :=
            ltInf_iff.mp hbeat
          have h2 : ((bfD points pr : ℚ) : WithTop ℚ) < toTop acc.1 := ltInf_iff.mp hstep
          have h3 : (bfD points (REST.get k) : WithTop ℚ) < toTop acc.1 :=
            lt_trans h1 h2
          have := ltInf_iff.mpr h3
          simpa using this
        · intro pr' hpr'
          rcases List.mem_cons.mp hpr' with rfl | h
          · have h1 : (bfD points (REST.get k) : WithTop ℚ) <
                toTop (some (bfD points pr')) := ltInf_iff.mp hbeat
            have : bfD points (REST.get k) < bfD points pr' := by
              simpa [toTop] using WithTop.coe_lt_coe.mp h1
            simpa using le_of_lt this
          · simpa using hmin pr' h
        · intro k' hk'
          obtain ⟨kv, hkv⟩ := k'
          change kv < k.val + 1 at hk'
          simp only [List.length_cons] at hkv
          cases kv with
          | zero =>
            show bfD points (REST.get k) < bfD points pr
            have h1 : (bfD points (REST.get k) : WithTop ℚ) <
                toTop (some (bfD points pr)) := ltInf_iff.mp hbeat
            simpa [toTop] using WithTop.coe_lt_coe.mp h1
          | succ kv' =>
            show bfD points (REST.get k) < bfD points (REST.get ⟨kv', by omega⟩)
            have hk2 : kv' < k.val := by omega
            exact hfirst ⟨kv', by omega⟩ hk2

theorem exists_cons_cons_of_two_le {l : List Point} (h : 2 ≤ l.length) :
    ∃ p0 p1 t, l = p0 :: p1 :: t := by
  match l, h with
  | p0 :: p1 :: t, _ => exact ⟨p0, p1, t, rfl⟩

theorem bf_eval (p0 p1 : Point) (t : List Point) (d : ℚ) (a b : Point)
    (hsplit : (pairIdxs (p0 :: p1 :: t).length).foldl (bfStep (p0 :: p1 :: t)) (none, p0, p1)
      = (some d, a, b)) :
    closest_pair_brute_force (p0 :: p1 :: t) = some ⟨a, b, d⟩ := by
  have hred : closest_pair_brute_force (p0 :: p1 :: t) =
      (match (pairIdxs (p0 :: p1 :: t).length).foldl (bfStep (p0 :: p1 :: t)) (none, p0, p1) with
        | (some d, a, b) => some (⟨a, b, d⟩ : ClosestPairResult)
        | (none, a, b) => some ⟨a, b, a.distance_squared_to b⟩) := rfl
  rw [hred, hsplit]

/-- Full behaviour of `closest_pair_brute_force` on inputs of length ≥ 2: it
returns the pair at the lexicographically smallest index pair `(i, j)`, `i <
j`, achieving the minimum pairwise distance, with the `dist2` field equal to
that pair's squared distance. -/
theorem bf_char (points : List Point) (h2 : 2 ≤ points.length) :
    ∃ (i j : ℕ) (hi : i < points.length) (hj : j < points.length),
      i < j ∧
      closest_pair_brute_force points =
        some ⟨points.get ⟨i, hi⟩, points.get ⟨j, hj⟩,
          (points.get ⟨i, hi⟩).distance_squared_to (points.get ⟨j, hj⟩)⟩ ∧
      (∀ (k l : ℕ) (hk : k < points.length) (hl : l < points.length), k < l →
        (points.get ⟨i, hi⟩).distance_squared_to (points.get ⟨j, hj⟩) ≤
          (points.get ⟨k, hk⟩).distance_squared_to (points.get ⟨l, hl⟩)) ∧
      (∀ (k l : ℕ) (hk : k < points.length) (hl : l < points.length), k < l →
        (points.get ⟨k, hk⟩).distance_squared_to (points.get ⟨l, hl⟩) =
          (points.get ⟨i, hi⟩).distance_squared_to (points.get ⟨j, hj⟩) →
        i < k ∨ (i = k ∧ j ≤ l)) := by
  obtain ⟨p0, p1, t, rfl⟩ := exists_cons_cons_of_two_le h2
  set points := p0 :: p1 :: t with hpts
  rcases bfFold_char points (pairIdxs points.length) (none, p0, p1) with
    ⟨_, hall⟩ | ⟨k, hval, hpair, _, hmin, hfirst⟩
  · -- impossible: the pair (0, 1) always beats the infinite initial minimum
    have hmem : ((0, 1) : ℕ × ℕ) ∈ pairIdxs points.length := by
      rw [mem_pairIdxs]
      constructor
      · omega
      · simp [hpts]
    have := hall (0, 1) hmem
    simp [ltInf] at this
  · have hprmem : (pairIdxs points.length).get k ∈ pairIdxs points.length :=
      List.get_mem (pairIdxs points.length) k.val k.isLt
    rw [mem_pairIdxs] at hprmem
    obtain ⟨hij, hjn⟩ := hprmem
    refine ⟨((pairIdxs points.length).get k).1, ((pairIdxs points.length).get k).2,
      lt_trans hij hjn, hjn, hij, ?_, ?_, ?_⟩
    · -- the returned value
      have hsplit : (pairIdxs points.length).foldl (bfStep points) (none, p0, p1) =
          (some (bfD points ((pairIdxs points.length).get k)),
            points.getD ((pairIdxs points.length).get k).1 ⟨0, 0⟩,
            points.getD ((pairIdxs points.length).get k).2 ⟨0, 0⟩) :=
        Prod.ext hval hpair
      have hbf := bf_eval p0 p1 t _ _ _ hsplit
      simp only [bfD, bfP] at hbf
      rw [getD_eq_get (lt_trans hij hjn), getD_eq_get hjn] at hbf
      exact hbf
    · intro a b ha hb hab
      have hmem : ((a, b) : ℕ × ℕ) ∈ pairIdxs points.length := mem_pairIdxs.mpr ⟨hab, hb⟩
      have := hmin (a, b) hmem
      simp only [bfD, bfP] at this
      simpa only [getD_eq_get (lt_trans hij hjn), getD_eq_get hjn,
        getD_eq_get ha, getD_eq_get hb] using this
    · intro a b ha hb hab heqd
      have hmem : ((a, b) : ℕ × ℕ) ∈ pairIdxs points.length := mem_pairIdxs.mpr ⟨hab, hb⟩
      obtain ⟨k'', hk''⟩ := List.mem_iff_get.mp hmem
      rcases lt_trichotomy k''.val k.val with hlt | heqk | hgt
      · exfalso
        have := hfirst k'' hlt
        rw [hk''] at this
        simp only [bfD, bfP] at this
        simp only [getD_eq_get (lt_trans hij hjn), getD_eq_get hjn,
          getD_eq_get ha, getD_eq_get hb] at this
        rw [heqd] at this
        exact lt_irrefl _ this
      · have : k'' = k := Fin.ext heqk
        rw [this] at hk''
        have h1 : ((pairIdxs points.length).get k).1 = a := by rw [hk'']
        have h2 : ((pairIdxs points.length).get k).2 = b := by rw [hk'']
        right
        exact ⟨h1, le_of_eq h2⟩
      · have hpw := pairIdxs_pairwise points.length
        rw [List.pairwise_iff_getElem] at hpw
        have := hpw k.val k''.val k.isLt k''.isLt hgt
        have hgetk : (pairIdxs points.length)[k.val] = (pairIdxs points.length).get k := rfl
        have hgetk'' : (pairIdxs points.length)[k''.val] = (pairIdxs points.length).get k'' :=
          rfl
        rw [hgetk, hgetk'', hk''] at this
        rcases this with h | ⟨h1, h2⟩
        · exact Or.inl h
        · exact Or.inr ⟨h1, le_of_lt h2⟩

/-! ## Unordered pairs of list elements (`hasPair`) -/

theorem hasPair_coe (l : List Point) (u v : Point) :
    hasPair l u v ↔ (([u, v] : List Point) : Multiset Point) ≤ (l : Multiset Point) := by
  unfold hasPair
  rfl

theorem pair_sublist_of_lt (l : List Point) :
    ∀ (i j : ℕ) (hj : j < l.length) (hij : i < j),
      [l.get ⟨i, lt_trans hij hj⟩, l.get ⟨j, hj⟩] <+ l := by
  induction l with
  | nil =>
    intro i j hj hij
    simp at hj
  | cons x tl ih =>
    intro i j hj hij
    cases i with
    | zero =>
      cases j with
      | zero => omega
      | succ j' =>
        have hj' : j' < tl.length := by simpa using hj
        have hmem : tl.get ⟨j', hj'⟩ ∈ tl := List.get_mem tl j' hj'
        exact List.Sublist.cons₂ x (List.singleton_sublist.mpr hmem)
    | succ i' =>
      cases j with
      | zero => omega
      | succ j' =>
        have hj' : j' < tl.length := by simpa using hj
        exact List.Sublist.cons x (ih i' j' hj' (by omega))

theorem hasPair_of_get {l : List Point} {i j : ℕ} (hi : i < l.length) (hj : j < l.length)
    (hne : i ≠ j) : hasPair l (l.get ⟨i, hi⟩) (l.get ⟨j, hj⟩) := by
  rcases Nat.lt_or_ge i j with h | h
  · rw [hasPair_coe]
    exact Multiset.coe_le.mpr (pair_sublist_of_lt l i j hj h).subperm
  · have hji : j < i := by omega
    unfold hasPair
    rw [Multiset.pair_comm]
    have : ({l.get ⟨j, hj⟩, l.get ⟨i, hi⟩} : Multiset Point)
        = (([l.get ⟨j, hj⟩, l.get ⟨i, hi⟩] : List Point) : Multiset Point) := rfl
    rw [this]
    exact Multiset.coe_le.mpr (pair_sublist_of_lt l j i hi hji).subperm

theorem perm_pair_eq {l : List Point} {u v : Point} (h : l.Perm [u, v]) :
    l = [u, v] ∨ l = [v, u] := by
  have hlen := h.length_eq
  match l, hlen with
  | [c, d], _ =>
    have hc : c ∈ [u, v] := h.subset (by simp)
    simp only [List.mem_cons, List.mem_singleton, List.not_mem_nil, or_false] at hc
    rcases hc with rfl | rfl
    · have h2 : [d].Perm [v] := h.cons_inv
      left
      rw [List.perm_singleton.mp h2]
    · have hswap : ([u, c] : List Point).Perm [c, u] := List.Perm.swap c u []
      have h2 : [d].Perm [u] := (h.trans hswap).cons_inv
      right
      rw [List.perm_singleton.mp h2]

theorem sublist_pair_indices {l : List Point} {a b : Point} (h : [a, b] <+ l) :
    ∃ (i j : ℕ) (hi : i < l.length) (hj : j < l.length),
      i < j ∧ l.get ⟨i, hi⟩ = a ∧ l.get ⟨j, hj⟩ = b := by
  induction l with
  | nil => simp at h
  | cons x tl ih =>
    cases h with
    | cons _ h2 =>
      obtain ⟨i, j, hi, hj, hij, ha, hb⟩ := ih h2
      exact ⟨i + 1, j + 1, by simpa using hi, by simpa using hj, by omega, ha, hb⟩
    | cons₂ _ h2 =>
      have hbmem := List.singleton_sublist.mp h2
      obtain ⟨j, hj, hbj⟩ := List.mem_iff_getElem.mp hbmem
      refine ⟨0, j + 1, by simp, by simpa using hj, by omega, rfl, ?_⟩
      simpa using hbj

theorem hasPair_elim {l : List Point} {u v : Point} (h : hasPair l u v) :
    ∃ (i j : ℕ) (hi : i < l.length) (hj : j < l.length),
      i ≠ j ∧ l.get ⟨i, hi⟩ = u ∧ l.get ⟨j, hj⟩ = v := by
  rw [hasPair_coe, Multiset.coe_le] at h
  obtain ⟨l2, hperm, hsub⟩ := h
  rcases perm_pair_eq hperm with rfl | rfl
  · obtain ⟨i, j, hi, hj, hij, ha, hb⟩ := sublist_pair_indices hsub
    exact ⟨i, j, hi, hj, by omega, ha, hb⟩
  · obtain ⟨i, j, hi, hj, hij, ha, hb⟩ := sublist_pair_indices hsub
    exact ⟨j, i, hj, hi, by omega, hb, ha⟩

theorem hasPair_mono {l1 l2 : List Point} {u v : Point} (h : hasPair l1 u v)
    (hle : (l1 : Multiset Point) ≤ (l2 : Multiset Point)) : hasPair l2 u v :=
  le_trans h hle

theorem hasPair_of_sublist {l1 l2 : List Point} {u v : Point} (h : hasPair l1 u v)
    (hs : l1 <+ l2) : hasPair l2 u v :=
  hasPair_mono h (Multiset.coe_le.mpr hs.subperm)

theorem hasPair_cons_elim {a : Point} {t : List Point} {u v : Point}
    (h : hasPair (a :: t) u v) :
    hasPair t u v ∨ (u = a ∧ v ∈ t) ∨ (v = a ∧ u ∈ t) := by
  obtain ⟨i, j, hi, hj, hne, hu, hv⟩ := hasPair_elim h
  cases i with
  | zero =>
    cases j with
    | zero => omega
    | succ j' =>
      right; left
      refine ⟨hu.symm, ?_⟩
      have : (a :: t).get ⟨j' + 1, hj⟩ = t.get ⟨j', by simpa using hj⟩ := rfl
      rw [← hv, this]
      exact List.get_mem t j' _
  | succ i' =>
    cases j with
    | zero =>
      right; right
      refine ⟨hv.symm, ?_⟩
      have : (a :: t).get ⟨i' + 1, hi⟩ = t.get ⟨i', by simpa using hi⟩ := rfl
      rw [← hu, this]
      exact List.get_mem t i' _
    | succ j' =>
      left
      have hu' : t.get ⟨i', by simpa using hi⟩ = u := hu
      have hv' : t.get ⟨j', by simpa using hj⟩ = v := hv
      rw [← hu', ← hv']
      exact hasPair_of_get _ _ (by omega)

/-- The multiset count of a point in a list, via `DecidableEq`. -/
theorem count_coe_list (a : Point) (l : List Point) :
    Multiset.count a (l : Multiset Point) = l.count a :=
  Multiset.coe_count a l

theorem count_pair_le_of_hasPair {l : List Point} {u v : Point} (h : hasPair l u v)
    (c : Point) :
    Multiset.count c ({u, v} : Multiset Point) ≤ l.count c := by
  rw [← count_coe_list]
  exact Multiset.le_iff_count.mp h c

theorem hasPair_of_counts {l : List Point} {u v : Point}
    (h : ∀ c : Point, Multiset.count c ({u, v} : Multiset Point) ≤ l.count c) :
    hasPair l u v := by
  unfold hasPair
  rw [Multiset.le_iff_count]
  intro c
  rw [count_coe_list]
  exact h c

theorem hasPair_filter {l : List Point} {u v : Point} {f : Point → Bool}
    (h : hasPair l u v) (hu : f u = true) (hv : f v = true) :
    hasPair (l.filter f) u v := by
  apply hasPair_of_counts
  intro c
  by_cases hcu : c = u
  · subst hcu
    rw [List.count_filter hu]
    exact count_pair_le_of_hasPair h c
  · by_cases hcv : c = v
    · subst hcv
      rw [List.count_filter hv]
      exact count_pair_le_of_hasPair h c
    · have : Multiset.count c ({u, v} : Multiset Point) = 0 := by
        simp [Multiset.count_cons, hcu, hcv]
      rw [this]
      exact Nat.zero_le _

/-- Value-level specification of the brute force: the result is a genuine
pairwise distance of the input and is minimal among all of them. -/
theorem bf_spec (points : List Point) (h2 : 2 ≤ points.length) :
    ∃ r, closest_pair_brute_force points = some r ∧
      (∃ u v, hasPair points u v ∧ r.dist2 = u.distance_squared_to v) ∧
      (∀ u v, hasPair points u v → r.dist2 ≤ u.distance_squared_to v) := by
  obtain ⟨i, j, hi, hj, hij, hbf, hmin, _⟩ := bf_char points h2
  refine ⟨_, hbf, ⟨points.get ⟨i, hi⟩, points.get ⟨j, hj⟩,
    hasPair_of_get hi hj (by omega), rfl⟩, ?_⟩
  intro u v huv
  obtain ⟨a, b, ha, hb, hne, hu, hv⟩ := hasPair_elim huv
  rcases Nat.lt_or_ge a b with hab | hab
  · have := hmin a b ha hb hab
    rw [hu, hv] at this
    exact this
  · have hba : b < a := by omega
    have := hmin b a hb ha hba
    rw [hu, hv] at this
    rw [dist2_comm v u] at this
    exact this

theorem bf_none_iff (points : List Point) :
    closest_pair_brute_force points = none ↔ points.length < 2 := by
  match points with
  | [] => simp [closest_pair_brute_force]
  | [p] => simp [closest_pair_brute_force]
  | p0 :: p1 :: t =>
    constructor
    · intro h
      exfalso
      obtain ⟨r, hr, _, _⟩ := bf_spec (p0 :: p1 :: t) (by simp)
      rw [h] at hr
      exact Option.noConfusion hr
    · intro h
      simp at h
      omega

/-! ## The strip scan -/

/-- The inner `while` loop of the strip scan, on a y-sorted tail: the result
is at most the incoming minimum, at most the distance from `p` to every point
of the tail, and is either the incoming record or a record formed from `p` and
a tail point. -/
theorem stripInner_spec (p : Point) :
    ∀ (rest : List Point) (minr : ClosestPairResult),
      rest.Pairwise (fun a b => a.y ≤ b.y) → (∀ q ∈ rest, p.y ≤ q.y) →
      (stripInner p rest minr).dist2 ≤ minr.dist2 ∧
      (∀ q ∈ rest, (stripInner p rest minr).dist2 ≤ p.distance_squared_to q) ∧
      (stripInner p rest minr = minr ∨
        ∃ q ∈ rest, stripInner p rest minr = ⟨p, q, p.distance_squared_to q⟩) := by
  intro rest
  induction rest with
  | nil =>
    intro minr _ _
    exact ⟨le_refl _, by simp, Or.inl rfl⟩
  | cons q rest' ih =>
    intro minr hsort hpy
    have hsort' : rest'.Pairwise (fun a b => a.y ≤ b.y) := hsort.tail
    have hqy : ∀ q' ∈ rest', q.y ≤ q'.y := by
      intro q' hq'
      exact (List.pairwise_cons.mp hsort).1 q' hq'
    have hpy' : ∀ q' ∈ rest', p.y ≤ q'.y := fun q' hq' => hpy q' (List.mem_cons_of_mem q hq')
    have hunfold : stripInner p (q :: rest') minr =
        if ltSqrt (q.y - p.y) minr.dist2 then
          stripInner p rest'
            (if p.distance_squared_to q < minr.dist2
              then ⟨p, q, p.distance_squared_to q⟩ else minr)
        else minr := rfl
    cases hlt : ltSqrt (q.y - p.y) minr.dist2 with
    | true =>
      have hstep : stripInner p (q :: rest') minr =
          stripInner p rest'
            (if p.distance_squared_to q < minr.dist2
              then ⟨p, q, p.distance_squared_to q⟩ else minr) := by
        rw [hunfold, if_pos hlt]
      rw [hstep]
      by_cases hd : p.distance_squared_to q < minr.dist2
      · rw [if_pos hd]
        obtain ⟨h1, h2, h3⟩ := ih ⟨p, q, p.distance_squared_to q⟩ hsort' hpy'
        refine ⟨le_trans h1 (le_of_lt hd), ?_, ?_⟩
        · intro q' hq'
          rcases List.mem_cons.mp hq' with rfl | hmem
          · exact h1
          · exact h2 q' hmem
        · rcases h3 with heq | ⟨q', hq', heq⟩
          · exact Or.inr ⟨q, List.mem_cons_self q rest', heq⟩
          · exact Or.inr ⟨q', List.mem_cons_of_mem q hq', heq⟩
      · rw [if_neg hd]
        obtain ⟨h1, h2, h3⟩ := ih minr hsort' hpy'
        refine ⟨h1, ?_, ?_⟩
        · intro q' hq'
          rcases List.mem_cons.mp hq' with rfl | hmem
          · exact le_trans h1 (le_of_not_lt hd)
          · exact h2 q' hmem
        · rcases h3 with heq | ⟨q', hq', heq⟩
          · exact Or.inl heq
          · exact Or.inr ⟨q', List.mem_cons_of_mem q hq', heq⟩
    | false =>
      have hstep : stripInner p (q :: rest') minr = minr := by
        rw [hunfold, if_neg (by simp [hlt])]
      rw [hstep]
      -- the while loop broke: `q.y - p.y` is nonnegative and its square is
      -- at least the current minimum, and later points have even larger
      -- y-difference
      have hbreak : 0 ≤ q.y - p.y ∧ minr.dist2 ≤ (q.y - p.y) * (q.y - p.y) := by
        unfold ltSqrt at hlt
        simp only [Bool.or_eq_false_iff, decide_eq_false_iff_not, not_lt] at hlt
        exact ⟨by linarith [hlt.1], hlt.2⟩
      refine ⟨le_refl _, ?_, Or.inl rfl⟩
      intro q' hq'
      rcases List.mem_cons.mp hq' with rfl | hmem
      · exact le_trans hbreak.2 (dy_sq_le_dist2' p q')
      · have h1 : q.y ≤ q'.y := hqy q' hmem
        have h2 : (q.y - p.y) * (q.y - p.y) ≤ (q'.y - p.y) * (q'.y - p.y) := by
          nlinarith [hbreak.1]
        exact le_trans (le_trans hbreak.2 h2) (dy_sq_le_dist2' p q')

/-- The outer loop of the strip scan: the result is at most the incoming
minimum and at most every pairwise distance within the (y-sorted) strip, and
is either the incoming record or realized by a pair of strip points. -/
theorem stripOuter_spec :
    ∀ (strip : List Point) (minr : ClosestPairResult),
      strip.Pairwise (fun a b => a.y ≤ b.y) →
      (stripOuter strip minr).dist2 ≤ minr.dist2 ∧
      (∀ u v, hasPair strip u v →
        (stripOuter strip minr).dist2 ≤ u.distance_squared_to v) ∧
      (stripOuter strip minr = minr ∨
        ∃ u v, hasPair strip u v ∧
          stripOuter strip minr = ⟨u, v, u.distance_squared_to v⟩) := by
  intro strip
  induction strip with
  | nil =>
    intro minr _
    refine ⟨le_refl _, ?_, Or.inl rfl⟩
    intro u v huv
    obtain ⟨i, _, hi, _, _, _, _⟩ := hasPair_elim huv
    simp at hi
  | cons p rest ih =>
    intro minr hsort
    have hsort' : rest.Pairwise (fun a b => a.y ≤ b.y) := hsort.tail
    have hpy : ∀ q ∈ rest, p.y ≤ q.y := (List.pairwise_cons.mp hsort).1
    have houter : stripOuter (p :: rest) minr = stripOuter rest (stripInner p rest minr) := rfl
    obtain ⟨hi1, hi2, hi3⟩ := stripInner_spec p rest minr hsort' hpy
    obtain ⟨ho1, ho2, ho3⟩ := ih (stripInner p rest minr) hsort'
    rw [houter]
    refine ⟨le_trans ho1 hi1, ?_, ?_⟩
    · intro u v huv
      rcases hasPair_cons_elim huv with hrest | ⟨rfl, hv⟩ | ⟨rfl, hu⟩
      · exact ho2 u v hrest
      · exact le_trans ho1 (hi2 v hv)
      · have := le_trans ho1 (hi2 u hu)
        rw [dist2_comm] at this
        exact this
    · rcases ho3 with heq | ⟨u, v, huv, heq⟩
      · rw [heq]
        rcases hi3 with heq2 | ⟨q, hq, heq2⟩
        · exact Or.inl heq2
        · refine Or.inr ⟨p, q, ?_, heq2⟩
          have hp0 : p = (p :: rest).get ⟨0, by simp⟩ := rfl
          have hmemq := hq
          obtain ⟨jq, hjq, hjqeq⟩ := List.mem_iff_getElem.mp hmemq
          have hq0 : q = (p :: rest).get ⟨jq + 1, by simpa using hjq⟩ := by
            simp only [List.get_cons_succ]
            exact hjqeq.symm ▸ rfl
          rw [hp0, hq0]
          exact hasPair_of_get _ _ (by omega)
      · refine Or.inr ⟨u, v, ?_, heq⟩
        exact hasPair_of_sublist huv (List.sublist_cons_self p rest)

/-! ## Facts about the x-sorted split -/

theorem take_x_le {px : List Point} (hs : px.Pairwise (fun a b => a.x ≤ b.x)) {mid : ℕ}
    (hmid : mid < px.length) : ∀ q ∈ px.take mid, q.x ≤ (px.get ⟨mid, hmid⟩).x := by
  intro q hq
  rw [List.mem_take_iff_getElem] at hq
  obtain ⟨i, hi, hqi⟩ := hq
  have hilt : i < mid := lt_of_lt_of_le hi (min_le_left _ _)
  have := (List.pairwise_iff_getElem.mp hs) i mid (by omega) hmid hilt
  rw [hqi] at this
  exact this

theorem drop_x_ge {px : List Point} (hs : px.Pairwise (fun a b => a.x ≤ b.x)) {mid : ℕ}
    (hmid : mid < px.length) : ∀ q ∈ px.drop mid, (px.get ⟨mid, hmid⟩).x ≤ q.x := by
  intro q hq
  rw [List.mem_drop_iff_getElem] at hq
  obtain ⟨i, hi, hqi⟩ := hq
  cases i with
  | zero =>
    have : px.get ⟨mid, hmid⟩ = q := by
      rw [← hqi]
      rfl
    rw [this]
  | succ i' =>
    have := (List.pairwise_iff_getElem.mp hs) mid (mid + (i' + 1)) hmid (by omega) (by omega)
    rw [hqi] at this
    exact this

theorem count_take_of_not_mem_drop {l : List Point} {c : Point} {n : ℕ}
    (h : c ∉ l.drop n) : (l.take n).count c = l.count c := by
  conv_rhs => rw [← List.take_append_drop n l]
  rw [List.count_append, List.count_eq_zero_of_not_mem h, Nat.add_zero]

theorem count_drop_of_not_mem_take {l : List Point} {c : Point} {n : ℕ}
    (h : c ∉ l.take n) : (l.drop n).count c = l.count c := by
  conv_rhs => rw [← List.take_append_drop n l]
  rw [List.count_append, List.count_eq_zero_of_not_mem h, Nat.zero_add]

theorem count_pair_eq_zero {u v c : Point} (hcu : c ≠ u) (hcv : c ≠ v) :
    Multiset.count c ({u, v} : Multiset Point) = 0 := by
  simp [Multiset.count_cons, hcu, hcv]

theorem hasPair_take_of {px : List Point} {u v : Point} {mid : ℕ} (h : hasPair px u v)
    (hu : u ∉ px.drop mid) (hv : v ∉ px.drop mid) : hasPair (px.take mid) u v := by
  apply hasPair_of_counts
  intro c
  by_cases hcu : c = u
  · subst hcu
    rw [count_take_of_not_mem_drop hu]
    exact count_pair_le_of_hasPair h _
  · by_cases hcv : c = v
    · subst hcv
      rw [count_take_of_not_mem_drop hv]
      exact count_pair_le_of_hasPair h _
    · rw [count_pair_eq_zero hcu hcv]
      exact Nat.zero_le _

theorem hasPair_drop_of {px : List Point} {u v : Point} {mid : ℕ} (h : hasPair px u v)
    (hu : u ∉ px.take mid) (hv : v ∉ px.take mid) : hasPair (px.drop mid) u v := by
  apply hasPair_of_counts
  intro c
  by_cases hcu : c = u
  · subst hcu
    rw [count_drop_of_not_mem_take hu]
    exact count_pair_le_of_hasPair h _
  · by_cases hcv : c = v
    · subst hcv
      rw [count_drop_of_not_mem_take hv]
      exact count_pair_le_of_hasPair h _
    · rw [count_pair_eq_zero hcu hcv]
      exact Nat.zero_le _

theorem sq_dist_to_between {a b c : ℚ} (h1 : min a b ≤ c) (h2 : c ≤ max a b) :
    (a - c) * (a - c) ≤ (a - b) * (a - b) := by
  rcases le_total a b with h | h
  · rw [min_eq_left h] at h1
    rw [max_eq_right h] at h2
    nlinarith [mul_nonneg (sub_nonneg.mpr h2) (sub_nonneg.mpr h1)]
  · rw [min_eq_right h] at h1
    rw [max_eq_left h] at h2
    nlinarith [mul_nonneg (sub_nonneg.mpr h1) (sub_nonneg.mpr h2)]

/-- Main invariant of `closest_pair_rec`: on an x-sorted `px` of length ≥ 2 and
a y-sorted `py`, it returns a record whose `dist2` is a genuine pairwise
distance of `px` or of `py`, and which is at most the distance of every pair
contained (as a multiset pair) in both `px` and `py`. -/
theorem rec_spec :
    ∀ (n : ℕ) (px py : List Point), px.length ≤ n → 2 ≤ px.length →
      px.Pairwise (fun a b => a.x ≤ b.x) → py.Pairwise (fun a b => a.y ≤ b.y) →
      ∃ r, closest_pair_rec px py = some r ∧
        (∃ u v, (hasPair px u v ∨ hasPair py u v) ∧
          r.dist2 = u.distance_squared_to v) ∧
        (∀ u v, hasPair px u v → hasPair py u v →
          r.dist2 ≤ u.distance_squared_to v) := by
  intro n
  induction n with
  | zero =>
    intro px py hlen h2 _ _
    omega
  | succ n ih =>
    intro px py hlen h2 hsx hsy
    by_cases hsmall : px.length ≤ 3
    · -- base case: the brute force is used
      have hrec : closest_pair_rec px py = closest_pair_brute_force px := by
        rw [closest_pair_rec.eq_def, dif_pos hsmall]
      obtain ⟨r, hbf, hreal, hmin⟩ := bf_spec px h2
      refine ⟨r, by rw [hrec]; exact hbf, ?_, ?_⟩
      · obtain ⟨u, v, huv, heq⟩ := hreal
        exact ⟨u, v, Or.inl huv, heq⟩
      · intro u v hupx _
        exact hmin u v hupx
    · -- recursive case
      have h4 : 4 ≤ px.length := by omega
      have hmidlt : px.length / 2 < px.length := by omega
      have hunf : closest_pair_rec px py =
          match closest_pair_rec (px.take (px.length / 2))
              (py.filter (fun p => decide (p.x ≤ (px.getD (px.length / 2) ⟨0, 0⟩).x))),
            closest_pair_rec (px.drop (px.length / 2))
              (py.filter (fun p => !decide (p.x ≤ (px.getD (px.length / 2) ⟨0, 0⟩).x))) with
          | none, none => none
          | some l, none => some (stripPhase py (px.getD (px.length / 2) ⟨0, 0⟩) l)
          | none, some r => some (stripPhase py (px.getD (px.length / 2) ⟨0, 0⟩) r)
          | some l, some r => some (stripPhase py (px.getD (px.length / 2) ⟨0, 0⟩)
              (if l.dist2 ≤ r.dist2 then l else r)) := by
        rw [closest_pair_rec.eq_def, dif_neg hsmall]
      set mid := px.length / 2 with hmiddef
      set m := px.getD mid ⟨0, 0⟩ with hmdef
      have hmget : m = px.get ⟨mid, hmidlt⟩ := getD_eq_get hmidlt
      have hLxlen : (px.take mid).length = mid := by
        rw [List.length_take]
        omega
      have hRxlen : (px.drop mid).length = px.length - mid := by
        simp
      have hsxL : (px.take mid).Pairwise (fun a b => a.x ≤ b.x) :=
        List.Pairwise.sublist (List.take_sublist mid px) hsx
      have hsxR : (px.drop mid).Pairwise (fun a b => a.x ≤ b.x) :=
        List.Pairwise.sublist (List.drop_sublist mid px) hsx
      have hsyL : (py.filter (fun p => decide (p.x ≤ m.x))).Pairwise
          (fun a b => a.y ≤ b.y) :=
        List.Pairwise.sublist (List.filter_sublist py) hsy
      have hsyR : (py.filter (fun p => !decide (p.x ≤ m.x))).Pairwise
          (fun a b => a.y ≤ b.y) :=
        List.Pairwise.sublist (List.filter_sublist py) hsy
      obtain ⟨rl, hrecl, hreall, hminl⟩ := ih (px.take mid)
        (py.filter (fun p => decide (p.x ≤ m.x)))
        (by rw [hLxlen]; omega) (by rw [hLxlen]; omega) hsxL hsyL
      obtain ⟨rr, hrecr, hrealr, hminr⟩ := ih (px.drop mid)
        (py.filter (fun p => !decide (p.x ≤ m.x)))
        (by rw [hRxlen]; omega) (by rw [hRxlen]; omega) hsxR hsyR
      rw [hrecl, hrecr] at hunf
      set cmb := if rl.dist2 ≤ rr.dist2 then rl else rr with hcmbdef
      have hcmb : (cmb.dist2 ≤ rl.dist2 ∧ cmb.dist2 ≤ rr.dist2) ∧ (cmb = rl ∨ cmb = rr) := by
        rw [hcmbdef]
        by_cases hc : rl.dist2 ≤ rr.dist2
        · rw [if_pos hc]
          exact ⟨⟨le_refl _, hc⟩, Or.inl rfl⟩
        · rw [if_neg hc]
          exact ⟨⟨le_of_not_le hc, le_refl _⟩, Or.inr rfl⟩
      have hstrip : stripPhase py m cmb =
          stripOuter
            (py.filter (fun p => decide ((p.x - m.x) * (p.x - m.x) < cmb.dist2))) cmb := rfl
      have hssorted :
          (py.filter (fun p => decide ((p.x - m.x) * (p.x - m.x) < cmb.dist2))).Pairwise
            (fun a b => a.y ≤ b.y) :=
        List.Pairwise.sublist (List.filter_sublist py) hsy
      obtain ⟨hs1, hs2, hs3⟩ := stripOuter_spec
        (py.filter (fun p => decide ((p.x - m.x) * (p.x - m.x) < cmb.dist2))) cmb hssorted
      refine ⟨stripPhase py m cmb, hunf, ?_, ?_⟩
      · -- the result is realized by a genuine pair of `px` or of `py`
        rw [hstrip]
        rcases hs3 with heq | ⟨u, v, huv, heq⟩
        · rw [heq]
          rcases hcmb.2 with hceq | hceq
          · rw [hceq]
            obtain ⟨u, v, huv, heqd⟩ := hreall
            refine ⟨u, v, ?_, heqd⟩
            rcases huv with h | h
            · exact Or.inl (hasPair_of_sublist h (List.take_sublist mid px))
            · exact Or.inr (hasPair_of_sublist h (List.filter_sublist py))
          · rw [hceq]
            obtain ⟨u, v, huv, heqd⟩ := hrealr
            refine ⟨u, v, ?_, heqd⟩
            rcases huv with h | h
            · exact Or.inl (hasPair_of_sublist h (List.drop_sublist mid px))
            · exact Or.inr (hasPair_of_sublist h (List.filter_sublist py))
        · rw [heq]
          exact ⟨u, v, Or.inr (hasPair_of_sublist huv (List.filter_sublist py)), rfl⟩
      · -- minimality over the pairs of `px ⊓ py`
        intro u v hupx hupy
        rw [hstrip]
        have htakele : ∀ q ∈ px.take mid, q.x ≤ m.x := by
          intro q hq
          rw [hmget]
          exact take_x_le hsx hmidlt q hq
        have hdropge : ∀ q ∈ px.drop mid, m.x ≤ q.x := by
          intro q hq
          rw [hmget]
          exact drop_x_ge hsx hmidlt q hq
        have hmixed : ∀ w z : Point, hasPair py w z →
            min w.x z.x ≤ m.x → m.x ≤ max w.x z.x →
            (stripOuter
              (py.filter (fun p => decide ((p.x - m.x) * (p.x - m.x) < cmb.dist2)))
              cmb).dist2 ≤ w.distance_squared_to z := by
          intro w z hwzpy hmin1 hmax1
          rcases le_or_lt cmb.dist2 (w.distance_squared_to z) with hle | hlt
          · exact le_trans hs1 hle
          · have hw : (w.x - m.x) * (w.x - m.x) < cmb.dist2 :=
              lt_of_le_of_lt
                (le_trans (sq_dist_to_between hmin1 hmax1) (dx_sq_le_dist2 w z)) hlt
            have hz : (z.x - m.x) * (z.x - m.x) < cmb.dist2 := by
              have h1 : (z.x - m.x) * (z.x - m.x) ≤ (z.x - w.x) * (z.x - w.x) :=
                sq_dist_to_between (by rw [min_comm]; exact hmin1) (by rw [max_comm]; exact hmax1)
              have h2 : (z.x - w.x) * (z.x - w.x) ≤ w.distance_squared_to z := by
                rw [dist2_comm]
                exact dx_sq_le_dist2 z w
              exact lt_of_le_of_lt (le_trans h1 h2) hlt
            have hpairstrip :
                hasPair (py.filter (fun p => decide ((p.x - m.x) * (p.x - m.x) < cmb.dist2)))
                  w z :=
              hasPair_filter hwzpy (by simpa using hw) (by simpa using hz)
            exact hs2 w z hpairstrip
        by_cases hu1 : u.x < m.x
        · by_cases hv1 : v.x < m.x
          · -- both strictly left of the line
            have hpxL : hasPair (px.take mid) u v :=
              hasPair_take_of hupx
                (fun hmem => absurd (hdropge u hmem) (not_le.mpr hu1))
                (fun hmem => absurd (hdropge v hmem) (not_le.mpr hv1))
            have hpyL : hasPair (py.filter (fun p => decide (p.x ≤ m.x))) u v :=
              hasPair_filter hupy (by simpa using le_of_lt hu1) (by simpa using le_of_lt hv1)
            calc (stripOuter
                  (py.filter (fun p => decide ((p.x - m.x) * (p.x - m.x) < cmb.dist2)))
                  cmb).dist2
                ≤ cmb.dist2 := hs1
              _ ≤ rl.dist2 := hcmb.1.1
              _ ≤ _ := hminl u v hpxL hpyL
          · exact hmixed u v hupy (le_trans (min_le_left _ _) (le_of_lt hu1))
              (le_trans (not_lt.mp hv1) (le_max_right _ _))
        · by_cases hv1 : v.x < m.x
          · exact hmixed u v hupy (le_trans (min_le_right _ _) (le_of_lt hv1))
              (le_trans (not_lt.mp hu1) (le_max_left _ _))
          · by_cases hu2 : m.x < u.x
            · by_cases hv2 : m.x < v.x
              · -- both strictly right of the line
                have hpxR : hasPair (px.drop mid) u v :=
                  hasPair_drop_of hupx
                    (fun hmem => absurd (htakele u hmem) (not_le.mpr hu2))
                    (fun hmem => absurd (htakele v hmem) (not_le.mpr hv2))
                have hpyR : hasPair (py.filter (fun p => !decide (p.x ≤ m.x))) u v :=
                  hasPair_filter hupy (by simpa using hu2) (by simpa using hv2)
                calc (stripOuter
                      (py.filter (fun p => decide ((p.x - m.x) * (p.x - m.x) < cmb.dist2)))
                      cmb).dist2
                    ≤ cmb.dist2 := hs1
                  _ ≤ rr.dist2 := hcmb.1.2
                  _ ≤ _ := hminr u v hpxR hpyR
              · exact hmixed u v hupy (le_trans (min_le_right _ _) (not_lt.mp hv2))
                  (le_trans (not_lt.mp hu1) (le_max_left _ _))
            · exact hmixed u v hupy (le_trans (min_le_left _ _) (not_lt.mp hu2))
                (le_trans (not_lt.mp hv1) (le_max_right _ _))

/-! ## The two pre-sorts of the divide-and-conquer algorithm -/

theorem sortByX_length (l : List Point) : (sortByX l).length = l.length := by
  simp [sortByX]

theorem sortByX_coe (l : List Point) :
    ((sortByX l : List Point) : Multiset Point) = (l : Multiset Point) :=
  Multiset.coe_eq_coe.mpr (List.mergeSort_perm l _)

theorem sortByY_coe (l : List Point) :
    ((sortByY l : List Point) : Multiset Point) = (l : Multiset Point) :=
  Multiset.coe_eq_coe.mpr (List.mergeSort_perm l _)

theorem sortByX_sorted (l : List Point) : (sortByX l).Pairwise (fun a b => a.x ≤ b.x) := by
  have htrans : ∀ a b c : Point, decide (a.x ≤ b.x) = true → decide (b.x ≤ c.x) = true →
      decide (a.x ≤ c.x) = true := by
    intro a b c h1 h2
    simp only [decide_eq_true_eq] at *
    linarith
  have htotal : ∀ a b : Point, (decide (a.x ≤ b.x) || decide (b.x ≤ a.x)) = true := by
    intro a b
    simpa using le_total a.x b.x
  have h := List.sorted_mergeSort htrans htotal l
  exact h.imp (fun hab => of_decide_eq_true hab)

theorem sortByY_sorted (l : List Point) : (sortByY l).Pairwise (fun a b => a.y ≤ b.y) := by
  have htrans : ∀ a b c : Point, decide (a.y ≤ b.y) = true → decide (b.y ≤ c.y) = true →
      decide (a.y ≤ c.y) = true := by
    intro a b c h1 h2
    simp only [decide_eq_true_eq] at *
    linarith
  have htotal : ∀ a b : Point, (decide (a.y ≤ b.y) || decide (b.y ≤ a.y)) = true := by
    intro a b
    simpa using le_total a.y b.y
  have h := List.sorted_mergeSort htrans htotal l
  exact h.imp (fun hab => of_decide_eq_true hab)

theorem hasPair_congr {l1 l2 : List Point} {u v : Point}
    (h : (l1 : Multiset Point) = (l2 : Multiset Point)) : hasPair l1 u v ↔ hasPair l2 u v := by
  unfold hasPair
  rw [h]

theorem dc_spec (points : List Point) (h2 : 2 ≤ points.length) :
    ∃ r, closest_pair_divide_conquer points = some r ∧
      (∃ u v, hasPair points u v ∧ r.dist2 = u.distance_squared_to v) ∧
      (∀ u v, hasPair points u v → r.dist2 ≤ u.distance_squared_to v) := by
  have hdc : closest_pair_divide_conquer points =
      closest_pair_rec (sortByX points) (sortByY points) := by
    unfold closest_pair_divide_conquer
    rw [if_neg (by omega)]
  obtain ⟨r, hrec, hreal, hmin⟩ := rec_spec (sortByX points).length (sortByX points)
    (sortByY points) (le_refl _) (by rw [sortByX_length]; exact h2)
    (sortByX_sorted points) (sortByY_sorted points)
  refine ⟨r, by rw [hdc]; exact hrec, ?_, ?_⟩
  · obtain ⟨u, v, hp, he⟩ := hreal
    refine ⟨u, v, ?_, he⟩
    rcases hp with h | h
    · exact (hasPair_congr (sortByX_coe points)).mp h
    · exact (hasPair_congr (sortByY_coe points)).mp h
  · intro u v hp
    exact hmin u v ((hasPair_congr (sortByX_coe points)).mpr hp)
      ((hasPair_congr (sortByY_coe points)).mpr hp)

/-- C1: for every input of at least 2 points, `closest_pair_divide_conquer`
returns `some` result whose `distance` equals the `distance` of the
`closest_pair_brute_force` result on the same input (agreement on the minimum
distance value; the pairs themselves may differ on exact ties).  Distances are
represented by their squares (`dist2`); equality of the source's `distance`
fields is exactly equality of the `dist2` fields, and the last conjunct
states it for the `sqrt`-valued distances themselves. -/
theorem C1_divide_conquer_distance_matches_brute_force (points : List Point)
    (h2 : 2 ≤ points.length) :
    ∃ r1 r2, closest_pair_divide_conquer points = some r1 ∧
      closest_pair_brute_force points = some r2 ∧
      r1.dist2 = r2.dist2 ∧
      Real.sqrt (r1.dist2 : ℝ) = Real.sqrt (r2.dist2 : ℝ) := by
  obtain ⟨r1, hdc, hreal1, hmin1⟩ := dc_spec points h2
  obtain ⟨r2, hbf, hreal2, hmin2⟩ := bf_spec points h2
  have heq : r1.dist2 = r2.dist2 := by
    obtain ⟨u1, v1, hp1, he1⟩ := hreal1
    obtain ⟨u2, v2, hp2, he2⟩ := hreal2
    have hle1 : r2.dist2 ≤ r1.dist2 := by
      rw [he1]
      exact hmin2 u1 v1 hp1
    have hle2 : r1.dist2 ≤ r2.dist2 := by
      rw [he2]
      exact hmin1 u2 v2 hp2
    exact le_antisymm hle2 hle1
  exact ⟨r1, r2, hdc, hbf, heq, by rw [heq]⟩

/-- Witness for C1 at the concrete input `[(0,0), (1,1), (5,5), (2,2)]` of the
specification's scenario 1. -/
theorem C1_witness :
    ∃ r1 r2,
      closest_pair_divide_conquer
        [⟨0, 0⟩, ⟨1, 1⟩, ⟨5, 5⟩, ⟨2, 2⟩] = some r1 ∧
      closest_pair_brute_force
        [⟨0, 0⟩, ⟨1, 1⟩, ⟨5, 5⟩, ⟨2, 2⟩] = some r2 ∧
      r1.dist2 = r2.dist2 ∧
      Real.sqrt (r1.dist2 : ℝ) = Real.sqrt (r2.dist2 : ℝ) :=
  C1_divide_conquer_distance_matches_brute_force
    [⟨0, 0⟩, ⟨1, 1⟩, ⟨5, 5⟩, ⟨2, 2⟩] (by decide)

/-- C7: `closest_pair_brute_force` examines the pairs `i < j` in index order
and returns the pair at the lexicographically smallest `(i, j)` achieving the
minimum pairwise distance (updates happen only on strictly smaller distances,
so the earliest achiever wins), and its result satisfies
`dist2 = point1.distance_squared_to point2` (i.e. the source's
`distance == point1.distance_to(point2)`). -/
theorem C7_brute_force_returns_lex_smallest_minimum (points : List Point)
    (h2 : 2 ≤ points.length) :
    ∃ r, closest_pair_brute_force points = some r ∧
      r.dist2 = r.point1.distance_squared_to r.point2 ∧
      ∃ (i j : ℕ) (hi : i < points.length) (hj : j < points.length),
        i < j ∧
        r.point1 = points.get ⟨i, hi⟩ ∧ r.point2 = points.get ⟨j, hj⟩ ∧
        (∀ (k l : ℕ) (hk : k < points.length) (hl : l < points.length), k < l →
          r.dist2 ≤ (points.get ⟨k, hk⟩).distance_squared_to (points.get ⟨l, hl⟩)) ∧
        (∀ (k l : ℕ) (hk : k < points.length) (hl : l < points.length), k < l →
          (points.get ⟨k, hk⟩).distance_squared_to (points.get ⟨l, hl⟩) = r.dist2 →
          i < k ∨ (i = k ∧ j ≤ l)) := by
  obtain ⟨i, j, hi, hj, hij, hbf, hmin, hlex⟩ := bf_char points h2
  exact ⟨_, hbf, rfl, i, j, hi, hj, hij, rfl, rfl, hmin, hlex⟩

/-- Witness for C7 at the input `[(0,0), (1,1), (5,5), (2,2)]`. -/
theorem C7_witness :
    ∃ r, closest_pair_brute_force
        ([⟨0, 0⟩, ⟨1, 1⟩, ⟨5, 5⟩, ⟨2, 2⟩] : List Point) = some r ∧
      r.dist2 = r.point1.distance_squared_to r.point2 ∧
      ∃ (i j : ℕ) (hi : i < ([⟨0, 0⟩, ⟨1, 1⟩, ⟨5, 5⟩, ⟨2, 2⟩] : List Point).length)
        (hj : j < ([⟨0, 0⟩, ⟨1, 1⟩, ⟨5, 5⟩, ⟨2, 2⟩] : List Point).length),
        i < j ∧
        r.point1 = ([⟨0, 0⟩, ⟨1, 1⟩, ⟨5, 5⟩, ⟨2, 2⟩] : List Point).get ⟨i, hi⟩ ∧
        r.point2 = ([⟨0, 0⟩, ⟨1, 1⟩, ⟨5, 5⟩, ⟨2, 2⟩] : List Point).get ⟨j, hj⟩ ∧
        (∀ (k l : ℕ) (hk : k < ([⟨0, 0⟩, ⟨1, 1⟩, ⟨5, 5⟩, ⟨2, 2⟩] : List Point).length)
          (hl : l < ([⟨0, 0⟩, ⟨1, 1⟩, ⟨5, 5⟩, ⟨2, 2⟩] : List Point).length), k < l →
          r.dist2 ≤ (([⟨0, 0⟩, ⟨1, 1⟩, ⟨5, 5⟩, ⟨2, 2⟩] : List Point).get
            ⟨k, hk⟩).distance_squared_to
            (([⟨0, 0⟩, ⟨1, 1⟩, ⟨5, 5⟩, ⟨2, 2⟩] : List Point).get ⟨l, hl⟩)) ∧
        (∀ (k l : ℕ) (hk : k < ([⟨0, 0⟩, ⟨1, 1⟩, ⟨5, 5⟩, ⟨2, 2⟩] : List Point).length)
          (hl : l < ([⟨0, 0⟩, ⟨1, 1⟩, ⟨5, 5⟩, ⟨2, 2⟩] : List Point).length), k < l →
          (([⟨0, 0⟩, ⟨1, 1⟩, ⟨5, 5⟩, ⟨2, 2⟩] : List Point).get ⟨k, hk⟩).distance_squared_to
            (([⟨0, 0⟩, ⟨1, 1⟩, ⟨5, 5⟩, ⟨2, 2⟩] : List Point).get ⟨l, hl⟩) = r.dist2 →
          i < k ∨ (i = k ∧ j ≤ l)) :=
  C7_brute_force_returns_lex_smallest_minimum
    [⟨0, 0⟩, ⟨1, 1⟩, ⟨5, 5⟩, ⟨2, 2⟩] (by decide)

/-- C8: both closest-pair functions return `none` exactly when the input has
fewer than 2 points; with 2 or more points they always return `some` result. -/
theorem C8_closest_pair_none_iff_fewer_than_two (points : List Point) :
    (closest_pair_brute_force points = none ↔ points.length < 2) ∧
    (closest_pair_divide_conquer points = none ↔ points.length < 2) := by
  refine ⟨bf_none_iff points, ?_, ?_⟩
  · intro h
    by_contra hlen
    obtain ⟨r, hdc, _, _⟩ := dc_spec points (by omega)
    rw [h] at hdc
    exact Option.noConfusion hdc
  · intro h
    unfold closest_pair_divide_conquer
    rw [if_pos h]

/-! ## Symmetry of segment intersection -/

/-- C6: `LineSegment::intersects` is symmetric.  Swapping the two segments
maps the four orientation tests `d1, d2, d3, d4` to `d3, d4, d1, d2` and the
four collinear bounding-box disjuncts onto each other, so the result is
unchanged. -/
theorem C6_intersects_symmetric (a b : LineSegment) :
    a.intersects b = b.intersects a := by
  simp only [LineSegment.intersects]
  generalize direction b.start b.endP a.start = q1
  generalize direction b.start b.endP a.endP = q2
  generalize direction a.start a.endP b.start = q3
  generalize direction a.start a.endP b.endP = q4
  generalize on_segment b.start a.start b.endP = s1
  generalize on_segment b.start a.endP b.endP = s2
  generalize on_segment a.start b.start a.endP = s3
  generalize on_segment a.start b.endP a.endP = s4
  generalize (decide (q1 > 0) && decide (q2 < 0) || decide (q1 < 0) && decide (q2 > 0)) = P
  generalize (decide (q3 > 0) && decide (q4 < 0) || decide (q3 < 0) && decide (q4 > 0)) = Q
  generalize (decide (q1 = 0) && s1) = y1
  generalize (decide (q2 = 0) && s2) = y2
  generalize (decide (q3 = 0) && s3) = y3
  generalize (decide (q4 = 0) && s4) = y4
  revert P Q y1 y2 y3 y4
  decide

/-! ## The k-d tree -/

theorem sortByDim_length (d : ℕ) (l : List Point) : (sortByDim d l).length = l.length := by
  unfold sortByDim
  split <;> simp [sortByX, sortByY]

theorem sortByDim_coe (d : ℕ) (l : List Point) :
    ((sortByDim d l : List Point) : Multiset Point) = (l : Multiset Point) := by
  unfold sortByDim
  split
  · exact sortByX_coe l
  · exact sortByY_coe l

theorem sortByDim_sorted (d : ℕ) (l : List Point) :
    (sortByDim d l).Pairwise (fun a b => coordAt d a ≤ coordAt d b) := by
  by_cases h : d = 0
  · have := sortByX_sorted l
    simp only [sortByDim, coordAt, if_pos h]
    exact this
  · have := sortByY_sorted l
    simp only [sortByDim, coordAt, if_neg h]
    exact this

theorem take_coord_le {f : Point → ℚ} {s : List Point}
    (hs : s.Pairwise (fun a b => f a ≤ f b)) {mid : ℕ} (hmid : mid < s.length) :
    ∀ q ∈ s.take mid, f q ≤ f (s.get ⟨mid, hmid⟩) := by
  intro q hq
  rw [List.mem_take_iff_getElem] at hq
  obtain ⟨i, hi, hqi⟩ := hq
  have hilt : i < mid := lt_of_lt_of_le hi (min_le_left _ _)
  have := (List.pairwise_iff_getElem.mp hs) i mid (by omega) hmid hilt
  rw [hqi] at this
  exact this

theorem drop_succ_coord_ge {f : Point → ℚ} {s : List Point}
    (hs : s.Pairwise (fun a b => f a ≤ f b)) {mid : ℕ} (hmid : mid < s.length) :
    ∀ q ∈ s.drop (mid + 1), f (s.get ⟨mid, hmid⟩) ≤ f q := by
  intro q hq
  rw [List.mem_drop_iff_getElem] at hq
  obtain ⟨i, hi, hqi⟩ := hq
  have := (List.pairwise_iff_getElem.mp hs) mid (mid + 1 + i) hmid (by omega) (by omega)
  rw [hqi] at this
  exact this

theorem build_recursive_eq (p : Point) (t : List Point) (depth : ℕ) :
    KdTree.build_recursive (p :: t) depth =
      Kd.node ((sortByDim (depth % 2) (p :: t)).getD ((p :: t).length / 2) ⟨0, 0⟩)
        (if 0 < (p :: t).length / 2 then
          KdTree.build_recursive
            ((sortByDim (depth % 2) (p :: t)).take ((p :: t).length / 2)) (depth + 1)
        else Kd.nil)
        (if (p :: t).length / 2 + 1 < (p :: t).length then
          KdTree.build_recursive
            ((sortByDim (depth % 2) (p :: t)).drop ((p :: t).length / 2 + 1)) (depth + 1)
        else Kd.nil)
        (depth % 2) := by
  rw [KdTree.build_recursive.eq_def]

theorem cons_add_middle (x : Point) (A B : Multiset Point) :
    x ::ₘ (A + B) = A + x ::ₘ B := by
  rw [← Multiset.singleton_add, ← Multiset.singleton_add]
  exact add_left_comm _ _ _

theorem build_recursive_nil (depth : ℕ) : KdTree.build_recursive [] depth = Kd.nil := by
  rw [KdTree.build_recursive.eq_def]

/-- Combined invariant of `build_recursive`: the tree stores exactly the input
points (as a multiset) and satisfies the per-node k-d ordering invariant. -/
theorem build_points_inv :
    ∀ (n : ℕ) (l : List Point) (depth : ℕ), l.length ≤ n →
      (KdTree.build_recursive l depth).points = (l : Multiset Point) ∧
      kdInv (KdTree.build_recursive l depth) := by
  intro n
  induction n with
  | zero =>
    intro l depth hlen
    match l, hlen with
    | [], _ =>
      rw [build_recursive_nil]
      exact ⟨by simp [Kd.points], trivial⟩
  | succ n ih =>
    intro l depth hlen
    match l with
    | [] =>
      rw [build_recursive_nil]
      exact ⟨by simp [Kd.points], trivial⟩
    | p :: t =>
      rw [build_recursive_eq]
      set s := sortByDim (depth % 2) (p :: t) with hs
      set mid := (p :: t).length / 2 with hmid
      have hslen : s.length = (p :: t).length := sortByDim_length _ _
      have hmideq : mid = (t.length + 1) / 2 := by
        rw [hmid]
        simp
      have hlen' : t.length + 1 ≤ n + 1 := by
        simpa using hlen
      have hmidlt : mid < s.length := by
        rw [hslen]
        simp only [List.length_cons]
        omega
      have hsorted : s.Pairwise (fun a b => coordAt (depth % 2) a ≤ coordAt (depth % 2) b) :=
        sortByDim_sorted _ _
      have hgetd : s.getD mid ⟨0, 0⟩ = s.get ⟨mid, hmidlt⟩ := getD_eq_get hmidlt
      have hlt : (s.take mid).length ≤ n := by
        rw [List.length_take, hslen]
        simp only [List.length_cons]
        omega
      have hrt : (s.drop (mid + 1)).length ≤ n := by
        rw [List.length_drop, hslen]
        simp only [List.length_cons]
        omega
      obtain ⟨hLpts, hLinv⟩ := ih (s.take mid) (depth + 1) hlt
      obtain ⟨hRpts, hRinv⟩ := ih (s.drop (mid + 1)) (depth + 1) hrt
      have hLpts' :
          (if 0 < mid then KdTree.build_recursive (s.take mid) (depth + 1) else Kd.nil).points
            = ((s.take mid : List Point) : Multiset Point) := by
        by_cases hg : 0 < mid
        · rw [if_pos hg]
          exact hLpts
        · rw [if_neg hg]
          have hm0 : mid = 0 := by omega
          simp [hm0, Kd.points]
      have hRpts' :
          (if mid + 1 < (p :: t).length then
              KdTree.build_recursive (s.drop (mid + 1)) (depth + 1)
            else Kd.nil).points
            = ((s.drop (mid + 1) : List Point) : Multiset Point) := by
        by_cases hg : mid + 1 < (p :: t).length
        · rw [if_pos hg]
          exact hRpts
        · rw [if_neg hg]
          have hnil : s.drop (mid + 1) = [] := by
            apply List.drop_eq_nil_of_le
            rw [hslen]
            omega
          simp [hnil, Kd.points]
      have hsplit : s = s.take mid ++ s.get ⟨mid, hmidlt⟩ :: s.drop (mid + 1) := by
        conv_lhs => rw [← List.take_append_drop mid s]
        congr 1
        exact List.drop_eq_getElem_cons hmidlt
      have hpoints :
          (Kd.node (s.getD mid ⟨0, 0⟩)
            (if 0 < mid then KdTree.build_recursive (s.take mid) (depth + 1) else Kd.nil)
            (if mid + 1 < (p :: t).length then
              KdTree.build_recursive (s.drop (mid + 1)) (depth + 1) else Kd.nil)
            (depth % 2)).points = ((p :: t : List Point) : Multiset Point) := by
        show (s.getD mid ⟨0, 0⟩) ::ₘ (_ + _) = _
        rw [hLpts', hRpts', hgetd]
        rw [cons_add_middle]
        have : ((s.take mid : List Point) : Multiset Point) +
            (s.get ⟨mid, hmidlt⟩ ::ₘ ((s.drop (mid + 1) : List Point) : Multiset Point))
            = ((s : List Point) : Multiset Point) := by
          rw [Multiset.cons_coe, Multiset.coe_add, ← hsplit]
        rw [this, hs]
        exact sortByDim_coe _ _
      refine ⟨hpoints, ?_, ?_, ?_, ?_⟩
      · -- left subtree is ≤ the split point along the splitting dimension
        intro q hq
        rw [hLpts', Multiset.mem_coe] at hq
        rw [hgetd]
        exact take_coord_le hsorted hmidlt q hq
      · -- right subtree is ≥ the split point along the splitting dimension
        intro q hq
        rw [hRpts', Multiset.mem_coe] at hq
        rw [hgetd]
        exact drop_succ_coord_ge hsorted hmidlt q hq
      · by_cases hg : 0 < mid
        · rw [if_pos hg]
          exact hLinv
        · rw [if_neg hg]
          trivial
      · by_cases hg : mid + 1 < (p :: t).length
        · rw [if_pos hg]
          exact hRinv
        · rw [if_neg hg]
          trivial

/-- Exactness of the pruned nearest-neighbor search: starting from a best
candidate with its correct squared distance, `nn_rec` returns a best candidate
with its correct squared distance, never worse than the start, at least as
close as every point stored in the (invariant-satisfying) subtree, and equal
to the start or drawn from the subtree.  The pruning step is lossless: a
skipped far subtree lies beyond the splitting hyperplane, which is already at
least as far as the current best. -/
theorem nn_rec_spec :
    ∀ (t : Kd) (query best : Point) (bestd : ℚ), kdInv t →
      bestd = query.distance_squared_to best →
      (KdTree.nn_rec t query best bestd).2
          = query.distance_squared_to (KdTree.nn_rec t query best bestd).1 ∧
      (KdTree.nn_rec t query best bestd).2 ≤ bestd ∧
      (∀ p ∈ t.points,
        (KdTree.nn_rec t query best bestd).2 ≤ query.distance_squared_to p) ∧
      ((KdTree.nn_rec t query best bestd).1 = best ∨
        (KdTree.nn_rec t query best bestd).1 ∈ t.points) := by
  intro t
  induction t with
  | nil =>
    intro query best bestd _ hbd
    refine ⟨hbd, le_refl _, ?_, Or.inl rfl⟩
    intro p hp
    simp [Kd.points] at hp
  | node pt l r dim ihl ihr =>
    intro query best bestd hinv hbd
    have hinv' : (∀ q ∈ l.points, coordAt dim q ≤ coordAt dim pt) ∧
        (∀ q ∈ r.points, coordAt dim pt ≤ coordAt dim q) ∧ kdInv l ∧ kdInv r := hinv
    obtain ⟨hinvL, hinvR, hkdl, hkdr⟩ := hinv'
    have hb1 : (if query.distance_squared_to pt < bestd
          then query.distance_squared_to pt else bestd)
        = query.distance_squared_to
          (if query.distance_squared_to pt < bestd then pt else best) := by
      by_cases h : query.distance_squared_to pt < bestd
      · rw [if_pos h, if_pos h]
      · rw [if_neg h, if_neg h, hbd]
    have hb1le : (if query.distance_squared_to pt < bestd
          then query.distance_squared_to pt else bestd) ≤ bestd := by
      by_cases h : query.distance_squared_to pt < bestd
      · rw [if_pos h]
        exact le_of_lt h
      · rw [if_neg h]
    have hb1led0 : (if query.distance_squared_to pt < bestd
          then query.distance_squared_to pt else bestd)
        ≤ query.distance_squared_to pt := by
      by_cases h : query.distance_squared_to pt < bestd
      · rw [if_pos h]
      · rw [if_neg h]
        exact le_of_not_lt h
    have hbor : (if query.distance_squared_to pt < bestd then pt else best) = best ∨
        (if query.distance_squared_to pt < bestd then pt else best) = pt := by
      by_cases h : query.distance_squared_to pt < bestd
      · rw [if_pos h]
        exact Or.inr rfl
      · rw [if_neg h]
        exact Or.inl rfl
    set d0 := query.distance_squared_to pt with hd0
    set qc := if dim = 0 then query.x else query.y with hqc
    set nc := if dim = 0 then pt.x else pt.y with hnc
    set best1 := if d0 < bestd then pt else best with hbest1
    set bestd1 := if d0 < bestd then d0 else bestd with hbestd1
    set ax := (qc - nc) * (qc - nc) with hax
    set s2l := KdTree.nn_rec l query best1 bestd1 with hs2l
    set s2r := KdTree.nn_rec r query best1 bestd1 with hs2r
    have hunf : KdTree.nn_rec (Kd.node pt l r dim) query best bestd =
        (if qc < nc then (if ax < s2l.2 then KdTree.nn_rec r query s2l.1 s2l.2 else s2l)
        else (if ax < s2r.2 then KdTree.nn_rec l query s2r.1 s2r.2 else s2r)) := rfl
    have hcoorddist : ∀ p : Point,
        (qc - (if dim = 0 then p.x else p.y)) * (qc - (if dim = 0 then p.x else p.y))
          ≤ query.distance_squared_to p := by
      intro p
      rw [hqc]
      by_cases hdim : dim = 0
      · simp only [if_pos hdim]
        exact dx_sq_le_dist2 query p
      · simp only [if_neg hdim]
        exact dy_sq_le_dist2 query p
    rw [hunf]
    by_cases hqlt : qc < nc
    · rw [if_pos hqlt]
      obtain ⟨hn1, hn2, hn3, hn4⟩ := ihl query best1 bestd1 hkdl hb1
      have hfarb : ∀ p ∈ r.points, ax ≤ query.distance_squared_to p := by
        intro p hp
        have hpc : nc ≤ (if dim = 0 then p.x else p.y) := by
          have h := hinvR p hp
          rw [hnc]
          exact h
        have hsq : ax ≤ (qc - (if dim = 0 then p.x else p.y)) *
            (qc - (if dim = 0 then p.x else p.y)) := by
          rw [hax]
          nlinarith [hqlt, hpc, mul_nonneg (sub_nonneg.mpr (le_trans (le_of_lt hqlt) hpc))
            (sub_nonneg.mpr hpc)]
        exact le_trans hsq (hcoorddist p)
      by_cases haxlt : ax < s2l.2
      · rw [if_pos haxlt]
        obtain ⟨hf1, hf2, hf3, hf4⟩ := ihr query s2l.1 s2l.2 hkdr hn1
        refine ⟨hf1, le_trans hf2 (le_trans hn2 hb1le), ?_, ?_⟩
        · intro p hp
          simp only [Kd.points] at hp
          rcases Multiset.mem_cons.mp hp with rfl | hp2
          · calc (KdTree.nn_rec r query s2l.1 s2l.2).2 ≤ s2l.2 := hf2
              _ ≤ bestd1 := hn2
              _ ≤ d0 := hb1led0
              _ = query.distance_squared_to p := hd0
          · rcases Multiset.mem_add.mp hp2 with hpl | hpr
            · exact le_trans hf2 (hn3 p hpl)
            · exact hf3 p hpr
        · simp only [Kd.points]
          rcases hf4 with heq | hmem
          · rw [heq]
            rcases hn4 with heq2 | hmem2
            · rw [heq2]
              rcases hbor with h | h
              · exact Or.inl h
              · rw [h]
                exact Or.inr (Multiset.mem_cons_self _ _)
            · exact Or.inr (Multiset.mem_cons.mpr
                (Or.inr (Multiset.mem_add.mpr (Or.inl hmem2))))
          · exact Or.inr (Multiset.mem_cons.mpr
              (Or.inr (Multiset.mem_add.mpr (Or.inr hmem))))
      · rw [if_neg haxlt]
        refine ⟨hn1, le_trans hn2 hb1le, ?_, ?_⟩
        · intro p hp
          simp only [Kd.points] at hp
          rcases Multiset.mem_cons.mp hp with rfl | hp2
          · calc s2l.2 ≤ bestd1 := hn2
              _ ≤ d0 := hb1led0
              _ = query.distance_squared_to p := hd0
          · rcases Multiset.mem_add.mp hp2 with hpl | hpr
            · exact hn3 p hpl
            · exact le_trans (le_of_not_lt haxlt) (hfarb p hpr)
        · simp only [Kd.points]
          rcases hn4 with heq2 | hmem2
          · rw [heq2]
            rcases hbor with h | h
            · exact Or.inl h
            · rw [h]
              exact Or.inr (Multiset.mem_cons_self _ _)
          · exact Or.inr (Multiset.mem_cons.mpr
              (Or.inr (Multiset.mem_add.mpr (Or.inl hmem2))))
    · rw [if_neg hqlt]
      obtain ⟨hn1, hn2, hn3, hn4⟩ := ihr query best1 bestd1 hkdr hb1
      have hfarb : ∀ p ∈ l.points, ax ≤ query.distance_squared_to p := by
        intro p hp
        have hpc : (if dim = 0 then p.x else p.y) ≤ nc := by
          have h := hinvL p hp
          rw [hnc]
          exact h
        have hncqc : nc ≤ qc := le_of_not_lt hqlt
        have hsq : ax ≤ (qc - (if dim = 0 then p.x else p.y)) *
            (qc - (if dim = 0 then p.x else p.y)) := by
          rw [hax]
          nlinarith [hpc, hncqc, mul_nonneg (sub_nonneg.mpr (le_trans hpc hncqc))
            (sub_nonneg.mpr hpc)]
        exact le_trans hsq (hcoorddist p)
      by_cases haxlt : ax < s2r.2
      · rw [if_pos haxlt]
        obtain ⟨hf1, hf2, hf3, hf4⟩ := ihl query s2r.1 s2r.2 hkdl hn1
        refine ⟨hf1, le_trans hf2 (le_trans hn2 hb1le), ?_, ?_⟩
        · intro p hp
          simp only [Kd.points] at hp
          rcases Multiset.mem_cons.mp hp with rfl | hp2
          · calc (KdTree.nn_rec l query s2r.1 s2r.2).2 ≤ s2r.2 := hf2
              _ ≤ bestd1 := hn2
              _ ≤ d0 := hb1led0
              _ = query.distance_squared_to p := hd0
          · rcases Multiset.mem_add.mp hp2 with hpl | hpr
            · exact hf3 p hpl
            · exact le_trans hf2 (hn3 p hpr)
        · simp only [Kd.points]
          rcases hf4 with heq | hmem
          · rw [heq]
            rcases hn4 with heq2 | hmem2
            · rw [heq2]
              rcases hbor with h | h
              · exact Or.inl h
              · rw [h]
                exact Or.inr (Multiset.mem_cons_self _ _)
            · exact Or.inr (Multiset.mem_cons.mpr
                (Or.inr (Multiset.mem_add.mpr (Or.inr hmem2))))
          · exact Or.inr (Multiset.mem_cons.mpr
              (Or.inr (Multiset.mem_add.mpr (Or.inl hmem))))
      · rw [if_neg haxlt]
        refine ⟨hn1, le_trans hn2 hb1le, ?_, ?_⟩
        · intro p hp
          simp only [Kd.points] at hp
          rcases Multiset.mem_cons.mp hp with rfl | hp2
          · calc s2r.2 ≤ bestd1 := hn2
              _ ≤ d0 := hb1led0
              _ = query.distance_squared_to p := hd0
          · rcases Multiset.mem_add.mp hp2 with hpl | hpr
            · exact le_trans (le_of_not_lt haxlt) (hfarb p hpl)
            · exact hn3 p hpr
        · simp only [Kd.points]
          rcases hn4 with heq2 | hmem2
          · rw [heq2]
            rcases hbor with h | h
            · exact Or.inl h
            · rw [h]
              exact Or.inr (Multiset.mem_cons_self _ _)
          · exact Or.inr (Multiset.mem_cons.mpr
              (Or.inr (Multiset.mem_add.mpr (Or.inr hmem2))))

/-- C9: every tree produced by `KdTree::build` satisfies the per-node
invariant: along a node's splitting dimension, every point stored in its left
subtree is `≤` the node's point and every point in its right subtree is `≥`
it, both non-strict. -/
theorem C9_build_satisfies_kd_invariant (points : List Point) :
    kdInv (KdTree.build points).root := by
  unfold KdTree.build
  by_cases h : points.isEmpty
  · rw [if_pos h]
    trivial
  · rw [if_neg h]
    exact (build_points_inv points.length points 0 (le_refl _)).2

/-- C10: the tree returned by `KdTree::build` stores exactly the input
points: the multiset of points held in its nodes equals the input multiset,
and in particular the node count equals the input length. -/
theorem C10_build_stores_exactly_the_input (points : List Point) :
    (KdTree.build points).root.points = (points : Multiset Point) ∧
    Multiset.card (KdTree.build points).root.points = points.length := by
  have hpts : (KdTree.build points).root.points = (points : Multiset Point) := by
    unfold KdTree.build
    by_cases h : points.isEmpty
    · rw [if_pos h]
      have : points = [] := List.isEmpty_iff.mp h
      rw [this]
      rfl
    · rw [if_neg h]
      exact (build_points_inv points.length points 0 (le_refl _)).1
  refine ⟨hpts, ?_⟩
  rw [hpts]
  exact Multiset.coe_card points

/-- C2: for a non-empty input, `KdTree::build` followed by
`nearest_neighbor(query)` returns `some p` where `p` is a stored point whose
squared distance to the query is the minimum of the squared distances from
the query to all input points (including distance 0 when the query coincides
with a stored point); for an empty input it returns `none`. -/
theorem C2_nearest_neighbor_is_exact (points : List Point) (query : Point) :
    (points = [] → (KdTree.build points).nearest_neighbor query = none) ∧
    (points ≠ [] → ∃ p, (KdTree.build points).nearest_neighbor query = some p ∧
      p ∈ points ∧
      ∀ q ∈ points, query.distance_squared_to p ≤ query.distance_squared_to q) := by
  constructor
  · rintro rfl
    rfl
  · intro hne
    match points, hne with
    | p0 :: t, _ =>
      have hbuild : KdTree.build (p0 :: t) = ⟨KdTree.build_recursive (p0 :: t) 0⟩ := by
        unfold KdTree.build
        rw [if_neg (by simp)]
      obtain ⟨hpts, hinv⟩ := build_points_inv (p0 :: t).length (p0 :: t) 0 (le_refl _)
      obtain ⟨pt2, l2, r2, dim2, hroot⟩ :
          ∃ pt2 l2 r2 dim2, KdTree.build_recursive (p0 :: t) 0 = Kd.node pt2 l2 r2 dim2 :=
        ⟨_, _, _, _, build_recursive_eq p0 t 0⟩
      rw [hroot] at hpts hinv
      have hnn : (KdTree.mk (Kd.node pt2 l2 r2 dim2)).nearest_neighbor query =
          some ((KdTree.nn_rec (Kd.node pt2 l2 r2 dim2) query pt2
            (query.distance_squared_to pt2)).1) := rfl
      rw [hbuild, hroot, hnn]
      obtain ⟨h1, _, h3, h4⟩ := nn_rec_spec (Kd.node pt2 l2 r2 dim2) query pt2
        (query.distance_squared_to pt2) hinv rfl
      refine ⟨_, rfl, ?_, ?_⟩
      · have hmem : (KdTree.nn_rec (Kd.node pt2 l2 r2 dim2) query pt2
            (query.distance_squared_to pt2)).1 ∈ (Kd.node pt2 l2 r2 dim2).points := by
          rcases h4 with heq | hm
          · rw [heq]
            simp only [Kd.points]
            exact Multiset.mem_cons_self _ _
          · exact hm
        rw [hpts] at hmem
        exact Multiset.mem_coe.mp hmem
      · intro q hq
        have hqmem : q ∈ (Kd.node pt2 l2 r2 dim2).points := by
          rw [hpts]
          exact Multiset.mem_coe.mpr hq
        have := h3 q hqmem
        rw [← h1]
        exact this

/-- Witness for C2: the empty input yields `none`, and for the
specification's scenario-4 input with query `(5,5)` the search returns a
stored point at minimal squared distance. -/
theorem C2_witness :
    ((KdTree.build ([] : List Point)).nearest_neighbor ⟨5, 5⟩ = none) ∧
    (∃ p, (KdTree.build
        ([⟨2, 3⟩, ⟨5, 4⟩, ⟨9, 6⟩, ⟨4, 7⟩, ⟨8, 1⟩, ⟨7, 2⟩] : List Point)).nearest_neighbor
          ⟨5, 5⟩ = some p ∧
      p ∈ ([⟨2, 3⟩, ⟨5, 4⟩, ⟨9, 6⟩, ⟨4, 7⟩, ⟨8, 1⟩, ⟨7, 2⟩] : List Point) ∧
      ∀ q ∈ ([⟨2, 3⟩, ⟨5, 4⟩, ⟨9, 6⟩, ⟨4, 7⟩, ⟨8, 1⟩, ⟨7, 2⟩] : List Point),
        (Point.mk 5 5).distance_squared_to p ≤ (Point.mk 5 5).distance_squared_to q) :=
  ⟨(C2_nearest_neighbor_is_exact [] ⟨5, 5⟩).1 rfl,
    (C2_nearest_neighbor_is_exact
      [⟨2, 3⟩, ⟨5, 4⟩, ⟨9, 6⟩, ⟨4, 7⟩, ⟨8, 1⟩, ⟨7, 2⟩] ⟨5, 5⟩).2 (by decide)⟩

/-! ## The Graham scan -/

/-- C3: the hull-containment property fails on the code.  On the input
`[(0,0), (4,0), (2,0), (2,2)]` the scan, lacking a tie-break for equal polar
angles, pops the true hull vertex `(4,0)` (the collinear run `(4,0), (2,0)`
from the anchor is visited far-point-first) and returns the triangle
`[(0,0), (2,0), (2,2)]`.  The input point `(4,0)` is excluded and lies
strictly outside that triangle: every returned vertex has `x ≤ 2 < 4`. -/
theorem C3_hull_containment_fails_on_equal_angles :
    convex_hull_graham_scan [⟨0, 0⟩, ⟨4, 0⟩, ⟨2, 0⟩, ⟨2, 2⟩]
        = [⟨0, 0⟩, ⟨2, 0⟩, ⟨2, 2⟩] ∧
    (⟨4, 0⟩ : Point) ∈ ([⟨0, 0⟩, ⟨4, 0⟩, ⟨2, 0⟩, ⟨2, 2⟩] : List Point) ∧
    (⟨4, 0⟩ : Point) ∉ convex_hull_graham_scan [⟨0, 0⟩, ⟨4, 0⟩, ⟨2, 0⟩, ⟨2, 2⟩] ∧
    (∀ p ∈ convex_hull_graham_scan [⟨0, 0⟩, ⟨4, 0⟩, ⟨2, 0⟩, ⟨2, 2⟩], p.x ≤ 2) ∧
    (4 : ℚ) > 2 := by
  have h1 : bottomPoint (⟨0, 0⟩ : Point) [⟨4, 0⟩, ⟨2, 0⟩, ⟨2, 2⟩] = ⟨0, 0⟩ := by decide
  have hrfl : convex_hull_graham_scan [⟨0, 0⟩, ⟨4, 0⟩, ⟨2, 0⟩, ⟨2, 2⟩] =
      ((([⟨0, 0⟩, ⟨4, 0⟩, ⟨2, 0⟩, ⟨2, 2⟩] : List Point).filter
          (fun p => p ≠ bottomPoint ⟨0, 0⟩ [⟨4, 0⟩, ⟨2, 0⟩, ⟨2, 2⟩])).mergeSort
            (angleLe (bottomPoint ⟨0, 0⟩ [⟨4, 0⟩, ⟨2, 0⟩, ⟨2, 2⟩])) |>.foldl
        (fun hull p => p :: popWhile p hull)
        [bottomPoint ⟨0, 0⟩ [⟨4, 0⟩, ⟨2, 0⟩, ⟨2, 2⟩]]).reverse := rfl
  rw [h1] at hrfl
  have h2 : ([⟨0, 0⟩, ⟨4, 0⟩, ⟨2, 0⟩, ⟨2, 2⟩] : List Point).filter
      (fun p => p ≠ (⟨0, 0⟩ : Point)) = [⟨4, 0⟩, ⟨2, 0⟩, ⟨2, 2⟩] := by decide
  rw [h2] at hrfl
  have h3 : ([⟨4, 0⟩, ⟨2, 0⟩, ⟨2, 2⟩] : List Point).mergeSort (angleLe ⟨0, 0⟩)
      = [⟨4, 0⟩, ⟨2, 0⟩, ⟨2, 2⟩] :=
    List.mergeSort_of_sorted (by norm_num [List.pairwise_cons, angleLe, cross_product])
  rw [h3] at hrfl
  have h4 : (([⟨4, 0⟩, ⟨2, 0⟩, ⟨2, 2⟩] : List Point).foldl
      (fun hull p => p :: popWhile p hull) [⟨0, 0⟩]).reverse
      = [⟨0, 0⟩, ⟨2, 0⟩, ⟨2, 2⟩] := by
    norm_num [List.foldl_cons, List.foldl_nil, popWhile, cross_product]
  rw [h4] at hrfl
  refine ⟨hrfl, by simp, ?_, ?_, by norm_num⟩
  · rw [hrfl]
    norm_num [Point.mk.injEq]
  · rw [hrfl]
    intro p hp
    rcases List.mem_cons.mp hp with rfl | hp2
    · norm_num
    · rcases List.mem_cons.mp hp2 with rfl | hp3
      · norm_num
      · rcases List.mem_cons.mp hp3 with rfl | hp4
        · norm_num
        · simp at hp4

theorem nbeats_trans {a b c : Point}
    (h1 : ¬(b.y < c.y ∨ (b.y = c.y ∧ b.x < c.x)))
    (h2 : ¬(a.y < b.y ∨ (a.y = b.y ∧ a.x < b.x))) :
    ¬(a.y < c.y ∨ (a.y = c.y ∧ a.x < c.x)) := by
  push_neg at *
  obtain ⟨h1a, h1b⟩ := h1
  obtain ⟨h2a, h2b⟩ := h2
  refine ⟨by linarith, ?_⟩
  intro heq
  have hbc : c.y ≤ b.y := h1a
  have hab : b.y ≤ a.y := h2a
  have hby : b.y = c.y := by linarith
  have hay : a.y = b.y := by linarith
  have := h1b hby
  have := h2b hay
  linarith

theorem nbeats_of_beats {a b c : Point}
    (h1 : ¬(b.y < c.y ∨ (b.y = c.y ∧ b.x < c.x)))
    (h2 : b.y < a.y ∨ (b.y = a.y ∧ b.x < a.x)) :
    ¬(a.y < c.y ∨ (a.y = c.y ∧ a.x < c.x)) := by
  push_neg at h1 ⊢
  obtain ⟨h1a, h1b⟩ := h1
  rcases h2 with h2 | ⟨h2a, h2b⟩
  · refine ⟨by linarith, ?_⟩
    intro heq
    linarith
  · refine ⟨by linarith, ?_⟩
    intro heq
    have hby : b.y = c.y := by linarith
    have := h1b hby
    linarith

/-- The anchor scan returns an element of the input on which no input point
improves (strictly smaller y, or equal y and strictly smaller x). -/
theorem bottomPoint_spec :
    ∀ (rest : List Point) (b : Point),
      (bottomPoint b rest = b ∨ bottomPoint b rest ∈ rest) ∧
      (∀ p : Point, (p = b ∨ p ∈ rest) →
        ¬(p.y < (bottomPoint b rest).y ∨
          (p.y = (bottomPoint b rest).y ∧ p.x < (bottomPoint b rest).x))) := by
  intro rest
  induction rest with
  | nil =>
    intro b
    refine ⟨Or.inl rfl, ?_⟩
    intro p hp
    rcases hp with rfl | h
    · rintro (h | ⟨_, h⟩) <;> exact lt_irrefl _ h
    · simp at h
  | cons q rest' ih =>
    intro b
    have hfold : bottomPoint b (q :: rest')
        = bottomPoint (if q.y < b.y ∨ (q.y = b.y ∧ q.x < b.x) then q else b) rest' := rfl
    obtain ⟨ihm, ihb⟩ := ih (if q.y < b.y ∨ (q.y = b.y ∧ q.x < b.x) then q else b)
    constructor
    · rw [hfold]
      by_cases hqb : q.y < b.y ∨ (q.y = b.y ∧ q.x < b.x)
      · rw [if_pos hqb] at ihm ⊢
        rcases ihm with heq | hmem
        · exact Or.inr (by rw [heq]; exact List.mem_cons_self q rest')
        · exact Or.inr (List.mem_cons_of_mem q hmem)
      · rw [if_neg hqb] at ihm ⊢
        rcases ihm with heq | hmem
        · exact Or.inl heq
        · exact Or.inr (List.mem_cons_of_mem q hmem)
    · intro p hp
      rw [hfold]
      rcases hp with rfl | hp2
      · by_cases hqb : q.y < p.y ∨ (q.y = p.y ∧ q.x < p.x)
        · have hq := ihb q (by rw [if_pos hqb]; exact Or.inl rfl)
          rw [if_pos hqb] at hq ⊢
          exact nbeats_of_beats hq hqb
        · have hb := ihb p (by rw [if_neg hqb]; exact Or.inl rfl)
          rw [if_neg hqb] at hb ⊢
          exact hb
      · rcases List.mem_cons.mp hp2 with rfl | hp3
        · by_cases hqb : p.y < b.y ∨ (p.y = b.y ∧ p.x < b.x)
          · have hq := ihb p (by rw [if_pos hqb]; exact Or.inl rfl)
            rw [if_pos hqb] at hq ⊢
            exact hq
          · have hb := ihb b (by rw [if_neg hqb]; exact Or.inl rfl)
            rw [if_neg hqb] at hb ⊢
            exact nbeats_trans hb hqb
        · exact ihb p (Or.inr hp3)

/-- Three points on a common line `A x + B y = C` (with `(A, B) ≠ (0, 0)`)
have zero cross product. -/
theorem collinear_cross_zero {A B C : ℚ} (hAB : ¬(A = 0 ∧ B = 0)) {o p q : Point}
    (ho : A * o.x + B * o.y = C) (hp : A * p.x + B * p.y = C)
    (hq : A * q.x + B * q.y = C) : cross_product o p q = 0 := by
  have h1 : A * (p.x - o.x) + B * (p.y - o.y) = 0 := by linarith
  have h2 : A * (q.x - o.x) + B * (q.y - o.y) = 0 := by linarith
  have hA : A * cross_product o p q = 0 := by
    unfold cross_product
    linear_combination (q.y - o.y) * h1 - (p.y - o.y) * h2
  have hB : B * cross_product o p q = 0 := by
    unfold cross_product
    linear_combination (-(q.x - o.x)) * h1 + (p.x - o.x) * h2
  by_cases hA0 : A = 0
  · have hB0 : B ≠ 0 := fun h => hAB ⟨hA0, h⟩
    exact (mul_eq_zero.mp hB).resolve_left hB0
  · exact (mul_eq_zero.mp hA).resolve_left hA0

theorem pairwise_of_forall {R : Point → Point → Prop} :
    ∀ {l : List Point}, (∀ a b : Point, a ∈ l → b ∈ l → R a b) → l.Pairwise R := by
  intro l
  induction l with
  | nil => intro _; exact List.Pairwise.nil
  | cons a t ih =>
    intro h
    refine List.Pairwise.cons ?_ (ih ?_)
    · intro b hb
      exact h a b (List.mem_cons_self a t) (List.mem_cons_of_mem a hb)
    · intro x y hx hy
      exact h x y (List.mem_cons_of_mem a hx) (List.mem_cons_of_mem a hy)

/-- On an all-collinear tail, the Graham scan stack stays at exactly two
elements: the anchor and the most recently pushed point; each new point pops
its (collinear) predecessor. -/
theorem collinear_scan :
    ∀ (l : List Point) (A x : Point),
      (∀ p q : Point, (p = x ∨ p ∈ l) → q ∈ l → cross_product A p q = 0) →
      l.foldl (fun hull p => p :: popWhile p hull) [x, A]
        = [(x :: l).getLast (by simp), A] := by
  intro l
  induction l with
  | nil =>
    intro A x _
    rfl
  | cons q l' ih =>
    intro A x h
    rw [List.foldl_cons]
    have hc : cross_product A x q = 0 := h x q (Or.inl rfl) (List.mem_cons_self q l')
    have hpop : popWhile q [x, A] = [A] := by
      have hunf : popWhile q [x, A]
          = if cross_product A x q ≤ 0 then popWhile q [A] else [x, A] := rfl
      rw [hunf, if_pos (le_of_eq hc)]
      rfl
    rw [hpop]
    rw [ih A q (fun p r hp hr => h p r
      (by
        rcases hp with rfl | hp2
        · exact Or.inr (List.mem_cons_self p l')
        · exact Or.inr (List.mem_cons_of_mem q hp2))
      (List.mem_cons_of_mem q hr))]
    congr 1

/-- Counterexample to C4 as stated: the 3 pairwise-distinct collinear points
`[(0,0), (2,0), (1,0)]` have extreme points `(0,0)` and `(2,0)`, but the scan
returns `[(0,0), (1,0)]`: the kept second point is the last non-anchor point
in input order, not the extreme, and the extreme `(2,0)` is dropped. -/
theorem C4_counterexample_last_point_kept_not_extreme :
    convex_hull_graham_scan [⟨0, 0⟩, ⟨2, 0⟩, ⟨1, 0⟩] = [⟨0, 0⟩, ⟨1, 0⟩] ∧
    (⟨2, 0⟩ : Point) ∉ convex_hull_graham_scan [⟨0, 0⟩, ⟨2, 0⟩, ⟨1, 0⟩] ∧
    (⟨2, 0⟩ : Point) ∈ ([⟨0, 0⟩, ⟨2, 0⟩, ⟨1, 0⟩] : List Point) ∧
    ([⟨0, 0⟩, ⟨2, 0⟩, ⟨1, 0⟩] : List Point).Nodup ∧
    (∀ p ∈ ([⟨0, 0⟩, ⟨2, 0⟩, ⟨1, 0⟩] : List Point), p.y = 0 ∧ 0 ≤ p.x ∧ p.x ≤ 2) := by
  have h1 : bottomPoint (⟨0, 0⟩ : Point) [⟨2, 0⟩, ⟨1, 0⟩] = ⟨0, 0⟩ := by decide
  have hrfl : convex_hull_graham_scan [⟨0, 0⟩, ⟨2, 0⟩, ⟨1, 0⟩] =
      ((([⟨0, 0⟩, ⟨2, 0⟩, ⟨1, 0⟩] : List Point).filter
          (fun p => p ≠ bottomPoint ⟨0, 0⟩ [⟨2, 0⟩, ⟨1, 0⟩])).mergeSort
            (angleLe (bottomPoint ⟨0, 0⟩ [⟨2, 0⟩, ⟨1, 0⟩])) |>.foldl
        (fun hull p => p :: popWhile p hull)
        [bottomPoint ⟨0, 0⟩ [⟨2, 0⟩, ⟨1, 0⟩]]).reverse := rfl
  rw [h1] at hrfl
  have h2 : ([⟨0, 0⟩, ⟨2, 0⟩, ⟨1, 0⟩] : List Point).filter
      (fun p => p ≠ (⟨0, 0⟩ : Point)) = [⟨2, 0⟩, ⟨1, 0⟩] := by decide
  rw [h2] at hrfl
  have h3 : ([⟨2, 0⟩, ⟨1, 0⟩] : List Point).mergeSort (angleLe ⟨0, 0⟩)
      = [⟨2, 0⟩, ⟨1, 0⟩] :=
    List.mergeSort_of_sorted (by norm_num [List.pairwise_cons, angleLe, cross_product])
  rw [h3] at hrfl
  have h4 : (([⟨2, 0⟩, ⟨1, 0⟩] : List Point).foldl
      (fun hull p => p :: popWhile p hull) [⟨0, 0⟩]).reverse = [⟨0, 0⟩, ⟨1, 0⟩] := by
    norm_num [List.foldl_cons, List.foldl_nil, popWhile, cross_product]
  rw [h4] at hrfl
  refine ⟨hrfl, ?_, by simp, by decide, ?_⟩
  · rw [hrfl]
    norm_num [Point.mk.injEq]
  · intro p hp
    rcases List.mem_cons.mp hp with rfl | hp2
    · norm_num
    · rcases List.mem_cons.mp hp2 with rfl | hp3
      · norm_num
      · rcases List.mem_cons.mp hp3 with rfl | hp4
        · norm_num
        · simp at hp4

/-- C4 (amended): for every input `p0 :: rest` of at least 3 pairwise-distinct
points lying on one common line, `convex_hull_graham_scan` returns exactly two
points: the anchor (minimal y, ties broken by minimal x) followed by the LAST
non-anchor point in input order.  All other collinear points are dropped, but
the kept second point is not necessarily an extreme point of the line (the
counterexample above forces this amendment of the original claim). -/
theorem C4_collinear_hull_is_anchor_then_last_input_point
    (points : List Point) (p0 : Point) (rest : List Point)
    (hcons : points = p0 :: rest) (h3 : 3 ≤ points.length) (hnd : points.Nodup)
    (hcol : ∃ A B C : ℚ, ¬(A = 0 ∧ B = 0) ∧ ∀ p ∈ points, A * p.x + B * p.y = C) :
    ∃ lastp : Point,
      (points.filter (fun p => p ≠ bottomPoint p0 rest)).getLast? = some lastp ∧
      convex_hull_graham_scan points = [bottomPoint p0 rest, lastp] := by
  subst hcons
  obtain ⟨A, B, C, hAB, hline⟩ := hcol
  obtain ⟨hbm, hbmin⟩ := bottomPoint_spec rest p0
  have hbmem : bottomPoint p0 rest ∈ p0 :: rest := by
    rcases hbm with h | h
    · rw [h]
      exact List.mem_cons_self _ _
    · exact List.mem_cons_of_mem _ h
  have hcross : ∀ p q : Point, p ∈ p0 :: rest → q ∈ p0 :: rest →
      cross_product (bottomPoint p0 rest) p q = 0 := fun p q hp hq =>
    collinear_cross_zero hAB (hline _ hbmem) (hline _ hp) (hline _ hq)
  have hfilne : (p0 :: rest).filter (fun p => p ≠ bottomPoint p0 rest) ≠ [] := by
    obtain ⟨q, hqmem, hqne⟩ : ∃ q, q ∈ p0 :: rest ∧ q ≠ bottomPoint p0 rest := by
      match rest, h3, hnd with
      | r1 :: r2 :: t, _, hnd =>
        by_cases h0 : p0 = bottomPoint p0 (r1 :: r2 :: t)
        · refine ⟨r1, by simp, ?_⟩
          intro hr1
          rw [← h0] at hr1
          have hmem : p0 ∈ r1 :: r2 :: t := by
            rw [← hr1]
            exact List.mem_cons_self _ _
          exact (List.nodup_cons.mp hnd).1 hmem
        · exact ⟨p0, List.mem_cons_self _ _, h0⟩
    intro hempty
    have hin : q ∈ (p0 :: rest).filter (fun p => p ≠ bottomPoint p0 rest) := by
      rw [List.mem_filter]
      exact ⟨hqmem, by simpa using hqne⟩
    rw [hempty] at hin
    simp at hin
  obtain ⟨f0, frest, hFeq⟩ :
      ∃ f0 frest, (p0 :: rest).filter (fun p => p ≠ bottomPoint p0 rest) = f0 :: frest := by
    match hF2 : (p0 :: rest).filter (fun p => p ≠ bottomPoint p0 rest), hfilne with
    | f0 :: frest, _ => exact ⟨f0, frest, rfl⟩
  have hFsub : ∀ p ∈ (p0 :: rest).filter (fun p => p ≠ bottomPoint p0 rest),
      p ∈ p0 :: rest := by
    intro p hp
    rw [List.mem_filter] at hp
    exact hp.1
  have hpair : ((p0 :: rest).filter (fun p => p ≠ bottomPoint p0 rest)).Pairwise
      (fun a b => angleLe (bottomPoint p0 rest) a b = true) :=
    pairwise_of_forall (fun a b ha hb => by
      unfold angleLe
      rw [hcross a b (hFsub a ha) (hFsub b hb)]
      simp)
  have hsort : ((p0 :: rest).filter (fun p => p ≠ bottomPoint p0 rest)).mergeSort
      (angleLe (bottomPoint p0 rest))
      = (p0 :: rest).filter (fun p => p ≠ bottomPoint p0 rest) :=
    List.mergeSort_of_sorted hpair
  have hrfl : convex_hull_graham_scan (p0 :: rest) =
      ((((p0 :: rest).filter (fun p => p ≠ bottomPoint p0 rest)).mergeSort
        (angleLe (bottomPoint p0 rest))).foldl
        (fun hull p => p :: popWhile p hull) [bottomPoint p0 rest]).reverse := by
    unfold convex_hull_graham_scan
    rw [if_neg (by simp only [List.length_cons] at h3 ⊢; omega)]
  rw [hsort, hFeq] at hrfl
  rw [List.foldl_cons] at hrfl
  have hpop0 : popWhile f0 [bottomPoint p0 rest] = [bottomPoint p0 rest] := rfl
  rw [hpop0] at hrfl
  have hfmem : ∀ p : Point, p = f0 ∨ p ∈ frest → p ∈ p0 :: rest := by
    intro p hp
    apply hFsub
    rw [hFeq]
    rcases hp with rfl | hp2
    · exact List.mem_cons_self _ _
    · exact List.mem_cons_of_mem _ hp2
  have hscan := collinear_scan frest (bottomPoint p0 rest) f0
    (fun p q hp hq => hcross p q (hfmem p hp) (hfmem q (Or.inr hq)))
  rw [hscan] at hrfl
  refine ⟨(f0 :: frest).getLast (by simp), ?_, ?_⟩
  · rw [hFeq]
    exact List.getLast?_eq_getLast _ _
  · rw [hrfl]
    rfl

/-- Witness for the amended C4 at the collinear input `[(0,0), (2,0), (1,0)]`
(on the line `y = 0`). -/
theorem C4_witness :
    ∃ lastp : Point,
      (([⟨0, 0⟩, ⟨2, 0⟩, ⟨1, 0⟩] : List Point).filter
        (fun p => p ≠ bottomPoint ⟨0, 0⟩ [⟨2, 0⟩, ⟨1, 0⟩])).getLast? = some lastp ∧
      convex_hull_graham_scan [⟨0, 0⟩, ⟨2, 0⟩, ⟨1, 0⟩]
        = [bottomPoint ⟨0, 0⟩ [⟨2, 0⟩, ⟨1, 0⟩], lastp] :=
  C4_collinear_hull_is_anchor_then_last_input_point
    [⟨0, 0⟩, ⟨2, 0⟩, ⟨1, 0⟩] ⟨0, 0⟩ [⟨2, 0⟩, ⟨1, 0⟩] rfl (by decide) (by decide)
    ⟨0, 1, 0, by norm_num, by
      intro p hp
      rcases List.mem_cons.mp hp with rfl | hp2
      · norm_num
      · rcases List.mem_cons.mp hp2 with rfl | hp3
        · norm_num
        · rcases List.mem_cons.mp hp3 with rfl | hp4
          · norm_num
          · simp at hp4⟩

/-! ## The instrumented variants never reach a panic -/

theorem getD_eq_getElem {α : Type} {l : List α} {i : ℕ} {d : α} (h : i < l.length) :
    l.getD i d = l[i] := by
  simp [List.getD_eq_getElem?_getD, List.getElem?_eq_getElem h]

theorem sortByXChk_eq (l : List Point) : sortByXChk l = some (sortByX l) := by
  unfold sortByXChk
  rw [if_pos (by simp [fcmp])]

theorem sortByYChk_eq (l : List Point) : sortByYChk l = some (sortByY l) := by
  unfold sortByYChk
  rw [if_pos (by simp [fcmp])]

theorem sortByDimChk_eq (dimension : ℕ) (l : List Point) :
    sortByDimChk dimension l = some (sortByDim dimension l) := by
  unfold sortByDimChk sortByDim
  split
  · exact sortByXChk_eq l
  · exact sortByYChk_eq l

theorem sortByAngleChk_eq (bottom : Point) (l : List Point) :
    sortByAngleChk bottom l = some (l.mergeSort (angleLe bottom)) := by
  unfold sortByAngleChk
  rw [if_pos (by simp [angleCmpChk])]

theorem bfPChk_eq {points : List Point} {ij : ℕ × ℕ} (h1 : ij.1 < points.length)
    (h2 : ij.2 < points.length) : bfPChk points ij = some (bfP points ij) := by
  unfold bfPChk bfP
  rw [List.getElem?_eq_getElem h1, List.getElem?_eq_getElem h2,
    getD_eq_getElem h1, getD_eq_getElem h2]

theorem bfStepChk_eq (points : List Point) (acc : Option ℚ × Point × Point) (ij : ℕ × ℕ)
    (h1 : ij.1 < points.length) (h2 : ij.2 < points.length) :
    bfStepChk points (some acc) ij = some (bfStep points acc ij) := by
  unfold bfStepChk bfStep
  rw [bfPChk_eq h1 h2]
  show (if ltInf (bfD points ij) acc.1 then some (some (bfD points ij), bfP points ij)
        else some acc)
      = some (if ltInf (bfD points ij) acc.1 then (some (bfD points ij), bfP points ij)
        else acc)
  cases hlt : ltInf (bfD points ij) acc.1 <;> rfl

theorem bfFoldChk_eq (points : List Point) (L : List (ℕ × ℕ)) :
    ∀ (acc : Option ℚ × Point × Point),
      (∀ ij ∈ L, ij.1 < points.length ∧ ij.2 < points.length) →
      L.foldl (bfStepChk points) (some acc) = some (L.foldl (bfStep points) acc) := by
  induction L with
  | nil => intro acc _; rfl
  | cons ij t ih =>
    intro acc h
    simp only [List.foldl_cons]
    rw [bfStepChk_eq points acc ij (h ij (List.mem_cons_self ij t)).1
      (h ij (List.mem_cons_self ij t)).2]
    exact ih _ (fun x hx => h x (List.mem_cons_of_mem _ hx))

theorem bfChk_eq (points : List Point) :
    closest_pair_brute_forceChk points = some (closest_pair_brute_force points) := by
  match points with
  | [] => rfl
  | [p] => rfl
  | p0 :: p1 :: t =>
    have hlen : ¬ (p0 :: p1 :: t).length < 2 := by simp
    have hchk : closest_pair_brute_forceChk (p0 :: p1 :: t) =
        match (pairIdxs (p0 :: p1 :: t).length).foldl (bfStepChk (p0 :: p1 :: t))
            (some (none, p0, p1)) with
        | none => none
        | some (some d, a, b) => some (some ⟨a, b, d⟩)
        | some (none, a, b) => some (some ⟨a, b, a.distance_squared_to b⟩) := by
      unfold closest_pair_brute_forceChk
      rw [if_neg hlen]
      simp only [List.getElem?_cons_zero, List.getElem?_cons_succ]
    have hbf : closest_pair_brute_force (p0 :: p1 :: t) =
        match (pairIdxs (p0 :: p1 :: t).length).foldl (bfStep (p0 :: p1 :: t))
            (none, p0, p1) with
        | (some d, a, b) => some ⟨a, b, d⟩
        | (none, a, b) => some ⟨a, b, a.distance_squared_to b⟩ := by
      unfold closest_pair_brute_force
      rfl
    rw [hchk, hbf]
    rw [bfFoldChk_eq (p0 :: p1 :: t) (pairIdxs (p0 :: p1 :: t).length) (none, p0, p1)
      (fun ij hij => by have := mem_pairIdxs.mp hij; omega)]
    rcases hr : (pairIdxs (p0 :: p1 :: t).length).foldl (bfStep (p0 :: p1 :: t))
        (none, p0, p1) with ⟨m, a, b⟩
    cases m <;> rfl

theorem recChk_eq (n : ℕ) : ∀ (px py : List Point), px.length ≤ n →
    closest_pair_recChk px py = some (closest_pair_rec px py) := by
  induction n with
  | zero =>
    intro px py hlen
    rw [closest_pair_recChk.eq_def, closest_pair_rec.eq_def,
      dif_pos (by omega : px.length ≤ 3), dif_pos (by omega : px.length ≤ 3)]
    exact bfChk_eq px
  | succ n ih =>
    intro px py hlen
    by_cases h3 : px.length ≤ 3
    · rw [closest_pair_recChk.eq_def, closest_pair_rec.eq_def, dif_pos h3, dif_pos h3]
      exact bfChk_eq px
    · have hmid : px.length / 2 < px.length := by omega
      have hunfChk : closest_pair_recChk px py =
          match closest_pair_recChk (px.take (px.length / 2))
              (py.filter (fun p => decide (p.x ≤ (px[px.length / 2]).x))),
            closest_pair_recChk (px.drop (px.length / 2))
              (py.filter (fun p => !decide (p.x ≤ (px[px.length / 2]).x))) with
          | some lo, some ro =>
            match lo, ro with
            | none, none => some none
            | some l, none => some (some (stripPhase py (px[px.length / 2]) l))
            | none, some r => some (some (stripPhase py (px[px.length / 2]) r))
            | some l, some r =>
              some (some (stripPhase py (px[px.length / 2])
                (if l.dist2 ≤ r.dist2 then l else r)))
          | _, _ => none := by
        rw [closest_pair_recChk.eq_def, dif_neg h3, List.getElem?_eq_getElem hmid]
      have hunf : closest_pair_rec px py =
          match closest_pair_rec (px.take (px.length / 2))
              (py.filter (fun p => decide (p.x ≤ (px.getD (px.length / 2) ⟨0, 0⟩).x))),
            closest_pair_rec (px.drop (px.length / 2))
              (py.filter (fun p => !decide (p.x ≤ (px.getD (px.length / 2) ⟨0, 0⟩).x))) with
          | none, none => none
          | some l, none => some (stripPhase py (px.getD (px.length / 2) ⟨0, 0⟩) l)
          | none, some r => some (stripPhase py (px.getD (px.length / 2) ⟨0, 0⟩) r)
          | some l, some r => some (stripPhase py (px.getD (px.length / 2) ⟨0, 0⟩)
              (if l.dist2 ≤ r.dist2 then l else r)) := by
        rw [closest_pair_rec.eq_def, dif_neg h3]
      rw [getD_eq_getElem hmid] at hunf
      rw [ih (px.take (px.length / 2)) _ (by simp only [List.length_take]; omega)] at hunfChk
      rw [ih (px.drop (px.length / 2)) _ (by simp only [List.length_drop]; omega)] at hunfChk
      rw [hunfChk, hunf]
      rcases closest_pair_rec (px.take (px.length / 2))
          (py.filter (fun p => decide (p.x ≤ (px[px.length / 2]).x))) with _ | l <;>
        rcases closest_pair_rec (px.drop (px.length / 2))
          (py.filter (fun p => !decide (p.x ≤ (px[px.length / 2]).x))) with _ | r <;>
        rfl

theorem dcChk_eq (points : List Point) :
    closest_pair_divide_conquerChk points = some (closest_pair_divide_conquer points) := by
  unfold closest_pair_divide_conquerChk closest_pair_divide_conquer
  by_cases h2 : points.length < 2
  · rw [if_pos h2, if_pos h2]
  · rw [if_neg h2, if_neg h2, sortByXChk_eq, sortByYChk_eq]
    exact recChk_eq (sortByX points).length (sortByX points) (sortByY points) le_rfl

theorem popWhileChk_eq (pt : Point) : ∀ (n : ℕ) (hull : List Point), hull.length ≤ n →
    popWhileChk pt hull = some (popWhile pt hull) := by
  intro n
  induction n with
  | zero =>
    intro hull hlen
    have hnil : hull = [] := List.eq_nil_of_length_eq_zero (by omega)
    subst hnil
    rw [popWhileChk.eq_def, dif_neg (by simp)]
    rfl
  | succ n ih =>
    intro hull hlen
    cases hull with
    | nil =>
      rw [popWhileChk.eq_def, dif_neg (by simp)]
      rfl
    | cons b tl =>
      cases tl with
      | nil =>
        rw [popWhileChk.eq_def, dif_neg (by simp)]
        rfl
      | cons a rest =>
        rw [popWhileChk.eq_def, dif_pos (by simp)]
        simp only [List.getElem?_cons_zero, List.getElem?_cons_succ, List.tail_cons]
        by_cases hc : cross_product a b pt ≤ 0
        · rw [if_pos hc, ih (a :: rest) (by simp only [List.length_cons] at hlen ⊢; omega)]
          simp only [popWhile]
          rw [if_pos hc]
        · rw [if_neg hc]
          simp only [popWhile]
          rw [if_neg hc]

theorem hullFoldChk_eq : ∀ (sorted : List Point) (hull0 : List Point),
    sorted.foldlM (fun hull p => (popWhileChk p hull).map (fun h => p :: h)) hull0 =
      some (sorted.foldl (fun hull p => p :: popWhile p hull) hull0) := by
  intro sorted
  induction sorted with
  | nil => intro hull0; rfl
  | cons p t ih =>
    intro hull0
    simp only [List.foldlM_cons, List.foldl_cons]
    rw [popWhileChk_eq p hull0.length hull0 le_rfl]
    exact ih (p :: popWhile p hull0)

theorem hullChk_eq (points : List Point) :
    convex_hull_graham_scanChk points = some (convex_hull_graham_scan points) := by
  by_cases h3 : points.length < 3
  · unfold convex_hull_graham_scanChk convex_hull_graham_scan
    rw [if_pos h3, if_pos h3]
  · cases points with
    | nil => simp at h3
    | cons p0 rest =>
      have hchk : convex_hull_graham_scanChk (p0 :: rest) =
          match sortByAngleChk (bottomPoint p0 rest)
              ((p0 :: rest).filter (fun p => p ≠ bottomPoint p0 rest)) with
          | none => none
          | some sorted =>
            (sorted.foldlM (fun hull p => (popWhileChk p hull).map (fun h => p :: h))
              [bottomPoint p0 rest]).map List.reverse := by
        unfold convex_hull_graham_scanChk
        rw [if_neg h3]
        simp only [List.getElem?_cons_zero, List.tail_cons]
      have hgs : convex_hull_graham_scan (p0 :: rest) =
          ((((p0 :: rest).filter (fun p => p ≠ bottomPoint p0 rest)).mergeSort
              (angleLe (bottomPoint p0 rest))).foldl
            (fun hull p => p :: popWhile p hull) [bottomPoint p0 rest]).reverse := by
        unfold convex_hull_graham_scan
        rw [if_neg h3]
      rw [hchk, sortByAngleChk_eq, hgs]
      show ((((p0 :: rest).filter (fun p => p ≠ bottomPoint p0 rest)).mergeSort
            (angleLe (bottomPoint p0 rest))).foldlM
          (fun hull p => (popWhileChk p hull).map (fun h => p :: h))
          [bottomPoint p0 rest]).map List.reverse
        = some (((((p0 :: rest).filter (fun p => p ≠ bottomPoint p0 rest)).mergeSort
              (angleLe (bottomPoint p0 rest))).foldl
            (fun hull p => p :: popWhile p hull) [bottomPoint p0 rest]).reverse)
      rw [hullFoldChk_eq]
      rfl

theorem intersectsChk_eq (s o : LineSegment) :
    LineSegment.intersectsChk s o = some (s.intersects o) := by
  simp only [LineSegment.intersectsChk, LineSegment.intersects]
  split_ifs <;> rfl

theorem fisFoldChk_eq (segments : List LineSegment) :
    ∀ (L : List (ℕ × ℕ)),
      (∀ ij ∈ L, ij.1 < segments.length ∧ ij.2 < segments.length) →
      ∀ (acc : List (ℕ × ℕ)),
        L.foldlM (fun acc ij =>
            segments[ij.1]?.bind fun a => segments[ij.2]?.bind fun b =>
              some (if a.intersects b then acc ++ [ij] else acc)) acc
          = some (acc ++ L.filter (fun ij =>
              (segments.getD ij.1 ⟨⟨0, 0⟩, ⟨0, 0⟩⟩).intersects
                (segments.getD ij.2 ⟨⟨0, 0⟩, ⟨0, 0⟩⟩))) := by
  intro L
  induction L with
  | nil => intro _ acc; simp
  | cons ij t ih =>
    intro h acc
    have hb1 := (h ij (List.mem_cons_self ij t)).1
    have hb2 := (h ij (List.mem_cons_self ij t)).2
    simp only [List.foldlM_cons, List.filter_cons]
    rw [List.getElem?_eq_getElem hb1, List.getElem?_eq_getElem hb2,
      getD_eq_getElem hb1, getD_eq_getElem hb2]
    simp only [Option.some_bind]
    by_cases hint : (segments[ij.1]).intersects segments[ij.2] = true
    · rw [if_pos hint, if_pos hint]
      exact (ih (fun x hx => h x (List.mem_cons_of_mem _ hx)) (acc ++ [ij])).trans
        (by simp)
    · rw [if_neg hint, if_neg hint]
      exact ih (fun x hx => h x (List.mem_cons_of_mem _ hx)) acc

theorem fisChk_eq (segments : List LineSegment) :
    find_intersecting_segmentsChk segments = some (find_intersecting_segments segments) := by
  unfold find_intersecting_segmentsChk find_intersecting_segments
  rw [fisFoldChk_eq segments (pairIdxs segments.length)
    (fun ij hij => by have := mem_pairIdxs.mp hij; omega) []]
  rw [List.nil_append]

theorem buildRecChk_eq : ∀ (n : ℕ) (points : List Point) (depth : ℕ),
    points.length ≤ n → points ≠ [] →
    KdTree.build_recursiveChk points depth = some (KdTree.build_recursive points depth) := by
  intro n
  induction n with
  | zero =>
    intro points depth hlen hne
    cases points with
    | nil => exact absurd rfl hne
    | cons p rest => simp at hlen
  | succ n ih =>
    intro points depth hlen hne
    cases points with
    | nil => exact absurd rfl hne
    | cons p rest =>
      have hmid : (p :: rest).length / 2 < (sortByDim (depth % 2) (p :: rest)).length := by
        rw [sortByDim_length]
        simp only [List.length_cons]
        omega
      have hchk : KdTree.build_recursiveChk (p :: rest) depth =
          match (sortByDim (depth % 2) (p :: rest))[(p :: rest).length / 2]? with
          | none => none
          | some point =>
            match (if 0 < (p :: rest).length / 2 then
                     KdTree.build_recursiveChk ((sortByDim (depth % 2) (p :: rest)).take
                       ((p :: rest).length / 2)) (depth + 1)
                   else some Kd.nil),
                  (if (p :: rest).length / 2 + 1 < (p :: rest).length then
                     KdTree.build_recursiveChk ((sortByDim (depth % 2) (p :: rest)).drop
                       ((p :: rest).length / 2 + 1)) (depth + 1)
                   else some Kd.nil) with
            | some leftT, some rightT => some (Kd.node point leftT rightT (depth % 2))
            | _, _ => none := by
        rw [KdTree.build_recursiveChk.eq_def, sortByDimChk_eq]
      rw [List.getElem?_eq_getElem hmid] at hchk
      rw [hchk, build_recursive_eq p rest depth, getD_eq_getElem hmid]
      by_cases hl : 0 < (p :: rest).length / 2
      · rw [if_pos hl, if_pos hl,
          ih ((sortByDim (depth % 2) (p :: rest)).take ((p :: rest).length / 2)) (depth + 1)
            (by
              simp only [List.length_take, sortByDim_length, List.length_cons] at hlen ⊢
              omega)
            (List.ne_nil_of_length_pos
              (by
                simp only [List.length_take, sortByDim_length, List.length_cons] at hl ⊢
                omega))]
        by_cases hr : (p :: rest).length / 2 + 1 < (p :: rest).length
        · rw [if_pos hr, if_pos hr,
            ih ((sortByDim (depth % 2) (p :: rest)).drop ((p :: rest).length / 2 + 1)) (depth + 1)
              (by
                simp only [List.length_drop, sortByDim_length, List.length_cons] at hlen ⊢
                omega)
              (List.ne_nil_of_length_pos
                (by
                  simp only [List.length_drop, sortByDim_length, List.length_cons] at hr ⊢
                  omega))]
        · rw [if_neg hr, if_neg hr]
      · rw [if_neg hl, if_neg hl]
        by_cases hr : (p :: rest).length / 2 + 1 < (p :: rest).length
        · rw [if_pos hr, if_pos hr,
            ih ((sortByDim (depth % 2) (p :: rest)).drop ((p :: rest).length / 2 + 1)) (depth + 1)
              (by
                simp only [List.length_drop, sortByDim_length, List.length_cons] at hlen ⊢
                omega)
              (List.ne_nil_of_length_pos
                (by
                  simp only [List.length_drop, sortByDim_length, List.length_cons] at hr ⊢
                  omega))]
        · rw [if_neg hr, if_neg hr]

theorem buildChk_eq (points : List Point) :
    KdTree.buildChk points = some (KdTree.build points) := by
  unfold KdTree.buildChk KdTree.build
  by_cases he : points.isEmpty
  · rw [if_pos he, if_pos he]
  · rw [if_neg he, if_neg he,
      buildRecChk_eq points.length points 0 le_rfl (fun h => he (by rw [h]; rfl))]

theorem nnRecChk_eq : ∀ (t : Kd) (query best : Point) (bestd : ℚ),
    KdTree.nn_recChk t query best bestd = some (KdTree.nn_rec t query best bestd) := by
  intro t
  induction t with
  | nil => intro query best bestd; rfl
  | node point l r dimension ihl ihr =>
    intro query best bestd
    simp only [KdTree.nn_recChk, KdTree.nn_rec]
    simp only [ihl, ihr, Option.some_bind]
    split_ifs <;> rfl

theorem nnChk_eq (t : KdTree) (query : Point) :
    KdTree.nearest_neighborChk t query = some (t.nearest_neighbor query) := by
  unfold KdTree.nearest_neighborChk KdTree.nearest_neighbor
  cases t.root with
  | nil => rfl
  | node point l r dimension =>
    show (match KdTree.nn_recChk (Kd.node point l r dimension) query point
          (query.distance_squared_to point) with
        | none => none
        | some s => some (some s.1))
        = some (some (KdTree.nn_rec (Kd.node point l r dimension) query point
            (query.distance_squared_to point)).1)
    rw [nnRecChk_eq]

/-- **C5**: for every input with finite coordinates, each public operation of
the geometry core returns normally — the panic-instrumented translation of
each operation (every slice indexing checked, every comparator unwrap
checked) reaches no failure point and returns exactly the uninstrumented
value; absence of a result is signalled only by the explicit `none`
(`Option`) payload of the closest-pair functions and `nearest_neighbor`. -/
theorem C5_public_operations_return_normally (points : List Point)
    (segments : List LineSegment) (s o : LineSegment) (t : KdTree) (query : Point) :
    closest_pair_brute_forceChk points = some (closest_pair_brute_force points) ∧
    closest_pair_divide_conquerChk points = some (closest_pair_divide_conquer points) ∧
    convex_hull_graham_scanChk points = some (convex_hull_graham_scan points) ∧
    LineSegment.intersectsChk s o = some (s.intersects o) ∧
    find_intersecting_segmentsChk segments = some (find_intersecting_segments segments) ∧
    KdTree.buildChk points = some (KdTree.build points) ∧
    KdTree.nearest_neighborChk t query = some (t.nearest_neighbor query) :=
  ⟨bfChk_eq points, dcChk_eq points, hullChk_eq points, intersectsChk_eq s o,
   fisChk_eq segments, buildChk_eq points, nnChk_eq t query⟩
